import Mathlib

/-!
# Verification of the ptp-dal time-offset estimation core

A shallow embedding, over `ℚ`, of the least-squares estimator (`src/ptp/ls.py`),
the packet-selection engine (`src/ptp/pktselection.py`) and the window-length
optimizer search (`src/ptp/window.py`), together with theorems settling the
stated properties of these components.  Machine floats are idealized as exact
rationals ("within floating-point tolerance" becomes exact equality); Python
exceptions (`raise`, failing `assert`) are modelled as error values.
-/

namespace PtpDal

/-- Observation record: one two-way protocol exchange.  Fields mirror the keys
consumed by `src/ptp/pktselection.py` and `src/ptp/ls.py`: the four timestamps,
the raw offset/delay measurements `x_est`/`d_est`, the ground truth `x`, and
the optional per-sample `drift` annotation ("drift" key present or absent). -/
structure Obs where
  t1 : ℚ
  t2 : ℚ
  t3 : ℚ
  t4 : ℚ
  x_est : ℚ
  d_est : ℚ
  x : ℚ
  drift : Option ℚ

/-- Default record used only to give list indexing a total type. -/
def obs0 : Obs := ⟨0, 0, 0, 0, 0, 0, 0, none⟩

/-- `PktSelection._sample_avg_normal`: `np.mean` of a window. -/
def sample_avg_normal (l : List ℚ) : ℚ := l.sum / l.length

/-! ## Recursive moving average (`PktSelection._sample_avg_recursive`) -/

/-- State of the recursive moving average: the running accumulator, the
circular buffer of size `2 N` (modelled as a total function on positions) and
the head index, as initialized by `PktSelection.__init__`. -/
structure MAvg where
  accum : ℚ
  buffer : ℕ → ℚ
  head : ℕ

/-- Fresh instance: zero accumulator, zeroed buffer, head index `N`. -/
def mavgInit (N : ℕ) : MAvg := ⟨0, fun _ => 0, N⟩

/-- `PktSelection._sample_avg_recursive`.  Python computes the tail index as
`(i_head - self.N) % (2*self.N)` with Python's nonnegative `%` on a possibly
negative left operand; since `i_head < 2*N` this equals `(i_head + N) % (2*N)`,
which is the form used here over `ℕ`.  The new observation is stored at the
head, the accumulator is updated by the new value minus the value at the tail,
and the returned average is the accumulator divided by `N`. -/
def mavgStep (N : ℕ) (st : MAvg) (x : ℚ) : ℚ × MAvg :=
  let iHead := st.head
  let iTail := (iHead + N) % (2 * N)
  let buf : ℕ → ℚ := fun p => if p = iHead then x else st.buffer p
  let accum := st.accum + x - buf iTail
  (accum / (N : ℚ), ⟨accum, buf, (iHead + 1) % (2 * N)⟩)

/-- State after feeding samples `xs 0, …, xs (k-1)` to a fresh instance. -/
def mavgRun (N : ℕ) (xs : ℕ → ℚ) : ℕ → MAvg
  | 0 => mavgInit N
  | k + 1 => (mavgStep N (mavgRun N xs k) (xs k)).2

/-- Value returned for the sample with 0-based index `k`. -/
def mavgOut (N : ℕ) (xs : ℕ → ℚ) (k : ℕ) : ℚ :=
  (mavgStep N (mavgRun N xs k) (xs k)).1

lemma mavgStep_head (N : ℕ) (st : MAvg) (x : ℚ) :
    (mavgStep N st x).2.head = (st.head + 1) % (2 * N) := rfl

lemma mavgStep_buffer (N : ℕ) (st : MAvg) (x : ℚ) :
    (mavgStep N st x).2.buffer = fun p => if p = st.head then x else st.buffer p := rfl

lemma mavgStep_accum (N : ℕ) (st : MAvg) (x : ℚ) :
    (mavgStep N st x).2.accum
      = st.accum + x
        - (if (st.head + N) % (2 * N) = st.head then x
           else st.buffer ((st.head + N) % (2 * N))) := rfl

lemma mavgStep_out (N : ℕ) (st : MAvg) (x : ℚ) :
    (mavgStep N st x).1 = (mavgStep N st x).2.accum / (N : ℚ) := rfl

lemma mavgRun_head (N : ℕ) (hN : 1 ≤ N) (xs : ℕ → ℚ) (k : ℕ) :
    (mavgRun N xs k).head = (N + k) % (2 * N) := by
  induction k with
  | zero =>
    show N = (N + 0) % (2 * N)
    rw [Nat.add_zero, Nat.mod_eq_of_lt (by omega)]
  | succ k ih =>
    show (mavgStep N (mavgRun N xs k) (xs k)).2.head = (N + (k + 1)) % (2 * N)
    rw [mavgStep_head, ih]
    have h1 : ((N + k) % (2 * N) + 1) % (2 * N) = ((N + k) + 1) % (2 * N) :=
      Nat.ModEq.add_right 1 (Nat.mod_modEq (N + k) (2 * N))
    rw [h1]
    rfl

lemma mavgRun_buffer_recent (N : ℕ) (hN : 1 ≤ N) (xs : ℕ → ℚ) (k : ℕ) :
    ∀ j, j < k → k ≤ j + 2 * N →
      (mavgRun N xs k).buffer ((N + j) % (2 * N)) = xs j := by
  induction k with
  | zero => intro j hj; omega
  | succ k ih =>
    intro j hj hk
    show (mavgStep N (mavgRun N xs k) (xs k)).2.buffer ((N + j) % (2 * N)) = xs j
    rw [mavgStep_buffer]
    simp only
    rcases Nat.lt_or_ge j k with hjk | hjk
    · have hne : (N + j) % (2 * N) ≠ (mavgRun N xs k).head := by
        rw [mavgRun_head N hN xs k]
        intro h
        have h2 : j ≡ k [MOD 2 * N] := Nat.ModEq.add_left_cancel' N h
        have hdvd : 2 * N ∣ k - j := (Nat.modEq_iff_dvd' (Nat.le_of_lt hjk)).mp h2
        have := Nat.le_of_dvd (by omega) hdvd
        omega
      rw [if_neg hne]
      exact ih j hjk (by omega)
    · have hj' : j = k := by omega
      subst hj'
      rw [if_pos (by rw [mavgRun_head N hN xs j])]

lemma mavgRun_buffer_zero (N : ℕ) (hN : 1 ≤ N) (xs : ℕ → ℚ) (k : ℕ) :
    ∀ p, (∀ j, j < k → (N + j) % (2 * N) ≠ p) → (mavgRun N xs k).buffer p = 0 := by
  induction k with
  | zero => intro p _; rfl
  | succ k ih =>
    intro p hp
    show (mavgStep N (mavgRun N xs k) (xs k)).2.buffer p = 0
    rw [mavgStep_buffer]
    simp only
    have hne : p ≠ (mavgRun N xs k).head := by
      rw [mavgRun_head N hN xs k]
      intro h
      exact hp k (Nat.lt_succ_self k) h.symm
    rw [if_neg hne]
    exact ih p (fun j hj => hp j (by omega))

lemma mavgRun_accum (N : ℕ) (hN : 1 ≤ N) (xs : ℕ → ℚ) (k : ℕ) :
    (mavgRun N xs k).accum = ∑ j ∈ Finset.Ico (k - N) k, xs j := by
  induction k with
  | zero => simp [mavgRun, mavgInit]
  | succ k ih =>
    show (mavgStep N (mavgRun N xs k) (xs k)).2.accum = _
    rw [mavgStep_accum]
    have hhead : (mavgRun N xs k).head = (N + k) % (2 * N) := mavgRun_head N hN xs k
    have htail : ((mavgRun N xs k).head + N) % (2 * N) = k % (2 * N) := by
      rw [hhead]
      have h1 : ((N + k) % (2 * N) + N) % (2 * N) = ((N + k) + N) % (2 * N) :=
        Nat.ModEq.add_right N (Nat.mod_modEq (N + k) (2 * N))
      rw [h1, show N + k + N = k + 2 * N by ring, Nat.add_mod_right]
    have hne : ¬ (k % (2 * N) = (mavgRun N xs k).head) := by
      rw [hhead]
      intro h
      have h3 : N + k ≡ 0 + k [MOD 2 * N] := by
        have hs : (N + k) % (2 * N) = k % (2 * N) := h.symm
        show (N + k) % (2 * N) = (0 + k) % (2 * N)
        rw [hs, Nat.zero_add]
      have h2 : N ≡ 0 [MOD 2 * N] := Nat.ModEq.add_right_cancel' k h3
      have h4 : N % (2 * N) = 0 % (2 * N) := h2
      rw [Nat.mod_eq_of_lt (show N < 2 * N by omega), Nat.zero_mod] at h4
      omega
    rw [htail, if_neg hne]
    rcases Nat.lt_or_ge k N with hkN | hkN
    · -- transient: the tail slot was never written, so nothing is subtracted
      have hzero : (mavgRun N xs k).buffer (k % (2 * N)) = 0 := by
        apply mavgRun_buffer_zero N hN xs k
        intro j hj h
        have hj2 : N + j < 2 * N := by omega
        have hk2 : k < 2 * N := by omega
        rw [Nat.mod_eq_of_lt hj2, Nat.mod_eq_of_lt hk2] at h
        omega
      rw [hzero, ih]
      have h1 : k - N = 0 := by omega
      have h2 : k + 1 - N = 0 := by omega
      rw [h1, h2, Finset.sum_Ico_succ_top (Nat.zero_le k)]
      ring
    · -- steady state: the tail slot holds the sample from exactly N steps ago
      have hrec : (mavgRun N xs k).buffer (k % (2 * N)) = xs (k - N) := by
        have h := mavgRun_buffer_recent N hN xs k (k - N) (by omega) (by omega)
        have harg : (N + (k - N)) % (2 * N) = k % (2 * N) := by
          congr 1
          omega
        rwa [harg] at h
      rw [hrec, ih]
      have hsplit : ∑ j ∈ Finset.Ico (k - N) (k + 1), xs j
          = ∑ j ∈ Finset.Ico (k - N) k, xs j + xs k :=
        Finset.sum_Ico_succ_top (by omega) xs
      have hbot : ∑ j ∈ Finset.Ico (k - N) (k + 1), xs j
          = xs (k - N) + ∑ j ∈ Finset.Ico (k - N + 1) (k + 1), xs j :=
        Finset.sum_eq_sum_Ico_succ_bot (by omega) xs
      have harg : k + 1 - N = k - N + 1 := by omega
      rw [harg]
      have := hbot.symm.trans hsplit
      linarith

/-! ## EWMA (`PktSelection._sample_avg_ewma`) -/

/-- EWMA state: the (non bias-corrected) running average and the sample count
used for bias correction, as initialized by `PktSelection.__init__`. -/
structure EwmaSt where
  lastAvg : ℚ
  n : ℕ

def ewmaInit : EwmaSt := ⟨0, 0⟩

/-- `PktSelection._sample_avg_ewma` with `alpha = 1/N`, `beta = 1 - 1/N`:
update the running average, bump the sample count, and return the
bias-corrected value `new_avg / (1 - beta ^ n)` (the uncorrected average is
what gets stored). -/
def ewmaStep (N : ℕ) (st : EwmaSt) (x : ℚ) : ℚ × EwmaSt :=
  let alpha : ℚ := 1 / (N : ℚ)
  let beta : ℚ := 1 - 1 / (N : ℚ)
  let newAvg := beta * st.lastAvg + alpha * x
  let n := st.n + 1
  let corr := newAvg * (1 / (1 - beta ^ n))
  (corr, ⟨newAvg, n⟩)

/-- State after feeding samples `xs 0, …, xs (k-1)` to a fresh instance. -/
def ewmaRun (N : ℕ) (xs : ℕ → ℚ) : ℕ → EwmaSt
  | 0 => ewmaInit
  | k + 1 => (ewmaStep N (ewmaRun N xs k) (xs k)).2

/-- Value returned for the sample with 0-based index `k`. -/
def ewmaOut (N : ℕ) (xs : ℕ → ℚ) (k : ℕ) : ℚ :=
  (ewmaStep N (ewmaRun N xs k) (xs k)).1

lemma ewmaRun_n (N : ℕ) (xs : ℕ → ℚ) (k : ℕ) : (ewmaRun N xs k).n = k := by
  induction k with
  | zero => rfl
  | succ k ih => simp [ewmaRun, ewmaStep, ih]

lemma ewmaRun_const (N : ℕ) (v : ℚ) (k : ℕ) :
    (ewmaRun N (fun _ => v) k).lastAvg = v * (1 - (1 - 1 / (N : ℚ)) ^ k) := by
  induction k with
  | zero => simp [ewmaRun, ewmaInit]
  | succ k ih =>
    simp only [ewmaRun, ewmaStep, ih]
    ring

lemma ewmaStep_out (N : ℕ) (st : EwmaSt) (x : ℚ) :
    (ewmaStep N st x).1
      = ((1 - 1 / (N : ℚ)) * st.lastAvg + (1 / (N : ℚ)) * x)
        * (1 / (1 - (1 - 1 / (N : ℚ)) ^ (st.n + 1))) := rfl

lemma sum_map_range (f : ℕ → ℚ) (n : ℕ) :
    ((List.range n).map f).sum = ∑ i ∈ Finset.range n, f i := by
  induction n with
  | zero => simp
  | succ n ih =>
    rw [List.range_succ, List.map_append, List.sum_append, Finset.sum_range_succ, ih]
    simp

lemma mavgOut_eq (N : ℕ) (hN : 1 ≤ N) (xs : ℕ → ℚ) (k : ℕ) :
    mavgOut N xs k = (∑ j ∈ Finset.Ico (k + 1 - N) (k + 1), xs j) / (N : ℚ) := by
  have hrun : (mavgStep N (mavgRun N xs k) (xs k)).2 = mavgRun N xs (k + 1) := rfl
  rw [mavgOut, mavgStep_out, hrun, mavgRun_accum N hN xs (k + 1)]

/-- **C6.** From the N-th processed sample onward (0-based index `k ≥ N-1`),
the recursive moving average of a freshly initialized instance
(`PktSelection._sample_avg_recursive`) returns exactly the arithmetic mean of
the last `N` observations — the same value `PktSelection._sample_avg_normal`
computes on that window — and consequently, on a constant input stream of
value `v`, it returns `v` from the N-th sample onward. -/
theorem claim6_recursive_avg_eq_windowed (N : ℕ) (hN : 1 ≤ N) (xs : ℕ → ℚ) (k : ℕ)
    (hk : N - 1 ≤ k) :
    mavgOut N xs k = sample_avg_normal ((List.range N).map (fun t => xs (k + 1 - N + t)))
      ∧ ∀ v : ℚ, mavgOut N (fun _ => v) k = v := by
  have hcard : k + 1 - (k + 1 - N) = N := by omega
  constructor
  · rw [mavgOut_eq N hN xs k, sample_avg_normal, sum_map_range, List.length_map,
      List.length_range, Finset.sum_Ico_eq_sum_range, hcard]
  · intro v
    rw [mavgOut_eq N hN (fun _ => v) k]
    rw [Finset.sum_const, Nat.card_Ico, hcard, nsmul_eq_mul]
    have hNne : (N : ℚ) ≠ 0 := Nat.cast_ne_zero.mpr (by omega)
    field_simp

/-- Closed witness for C6 at `N = 2`, `k = 3`. -/
theorem claim6_witness :
    1 ≤ 2 ∧ 2 - 1 ≤ 3
      ∧ (mavgOut 2 (fun i => (i : ℚ)) 3
          = sample_avg_normal ((List.range 2).map (fun t => ((3 + 1 - 2 + t : ℕ) : ℚ)))
        ∧ ∀ v : ℚ, mavgOut 2 (fun _ => v) 3 = v) :=
  ⟨by decide, by decide, claim6_recursive_avg_eq_windowed 2 (by decide) _ 3 (by decide)⟩

/-- **C7.** Starting from a freshly initialized instance, the bias-corrected
EWMA (`PktSelection._sample_avg_ewma`) applied to a constant input stream of
value `v` returns exactly `v` at every step (over exact rational arithmetic,
i.e. within floating-point tolerance): there is no warm-up bias at any step.
`k` is the 0-based sample index, so the bias-correction exponent is
`n = k + 1 ≥ 1`. -/
theorem claim7_ewma_const (N : ℕ) (hN : 1 ≤ N) (v : ℚ) (k : ℕ) :
    ewmaOut N (fun _ => v) k = v := by
  have hNQ : (1 : ℚ) ≤ (N : ℚ) := by exact_mod_cast hN
  have hN0 : (0 : ℚ) < (N : ℚ) := by linarith
  have hinv : 1 / (N : ℚ) ≤ 1 := by
    rw [div_le_one hN0]
    exact hNQ
  have hinv0 : 0 < 1 / (N : ℚ) := by positivity
  have hb0 : 0 ≤ 1 - 1 / (N : ℚ) := by linarith
  have hb1 : 1 - 1 / (N : ℚ) < 1 := by linarith
  have hpow : (1 - 1 / (N : ℚ)) ^ (k + 1) < 1 := pow_lt_one₀ hb0 hb1 (Nat.succ_ne_zero k)
  have hne : 1 - (1 - 1 / (N : ℚ)) ^ (k + 1) ≠ 0 := by
    intro h
    have : (1 - 1 / (N : ℚ)) ^ (k + 1) = 1 := by linarith
    linarith
  rw [ewmaOut, ewmaStep_out, ewmaRun_const, ewmaRun_n]
  have hAvg : (1 - 1 / (N : ℚ)) * (v * (1 - (1 - 1 / (N : ℚ)) ^ k)) + 1 / (N : ℚ) * v
      = v * (1 - (1 - 1 / (N : ℚ)) ^ (k + 1)) := by
    rw [pow_succ]
    ring
  rw [hAvg, mul_one_div, mul_div_assoc, div_self hne, mul_one]

/-- Closed witness for C7 at `N = 3`, `v = 5`, `k = 2` (third sample). -/
theorem claim7_witness : 1 ≤ 3 ∧ ewmaOut 3 (fun _ => (5 : ℚ)) 2 = 5 :=
  ⟨by decide, claim7_ewma_const 3 (by decide) 5 2⟩

/-! ## Least squares (`src/ptp/ls.py`) -/

/-- Noisy time-offset observation stream of a trace (`x_obs` in `Ls.process`). -/
def lsXs (data : List Obs) : ℕ → ℚ := fun i => (data.getD i obs0).x_est

/-- `np.diff`: successive differences. -/
def npDiff (l : List ℚ) : List ℚ := (l.zip l.tail).map (fun p => p.2 - p.1)

/-- Learned measurement period `np.mean(np.diff(t1))` (`Ls.process`).  On a
trace with fewer than two records numpy yields `nan` with a warning; the
rational model yields the junk value `0` there (division by zero), which no
theorem below relies on. -/
def meanConsecDiff (l : List ℚ) : ℚ := sample_avg_normal (npDiff l)

/-- Window sum `Q1` of the efficient LS (`Ls.process`, impl "eff"):
`np.sum(X_obs, axis=0)` — the sum of the `N` offset observations of the
window starting at `i`. -/
def lsQ1 (xs : ℕ → ℚ) (N i : ℕ) : ℚ := ∑ k ∈ Finset.range N, xs (i + k)

/-- Window sum `Q2`: `np.dot(np.arange(N), X_obs)` — the index-weighted sum. -/
def lsQ2 (xs : ℕ → ℚ) (N i : ℕ) : ℚ := ∑ k ∈ Finset.range N, (k : ℚ) * xs (i + k)

/-- `Theta = P . Q` of the efficient LS, with the content-independent matrix
`P = (2/(N*(N+1))) * [[2N-1, -3], [-3, 6/(N-1)]]` applied to `(Q1, Q2)`.
First component: fitted initial offset `x0` of the window; second: drift in
nanoseconds per measurement (`y * T_ns`). -/
def lsEffTheta (N : ℕ) (xs : ℕ → ℚ) (i : ℕ) : ℚ × ℚ :=
  let c : ℚ := 2 / ((N : ℚ) * ((N : ℚ) + 1))
  (c * ((2 * (N : ℚ) - 1) * lsQ1 xs N i + (-3) * lsQ2 xs N i),
   c * ((-3) * lsQ1 xs N i + 6 / ((N : ℚ) - 1) * lsQ2 xs N i))

/-- Fitted offset at the window's last sample: `Xf = X0 + Y_times_T_ns*(N-1)`. -/
def lsEffXf (N : ℕ) (xs : ℕ → ℚ) (i : ℕ) : ℚ :=
  (lsEffTheta N xs i).1 + (lsEffTheta N xs i).2 * ((N : ℚ) - 1)

/-- Sum of squared residuals of the affine fit `a + b*k` against the window
values `w 0, …, w (N-1)` (regression against the integer index `0..N-1`). -/
def SSE (N : ℕ) (w : ℕ → ℚ) (a b : ℚ) : ℚ :=
  ∑ k ∈ Finset.range N, (w k - (a + b * k)) ^ 2

/-- The per-window explicit least squares of impl "t1"/"t2" (`Ls.process`):
time axis `tau = t - t[0]` from the chosen timestamp family, then the
closed-form solution of the 2-parameter normal equations (what
`np.linalg.lstsq` returns on this full-rank system; a rank-deficient window
would make `det = 0` and the rational convention yields junk `0` where numpy
would pick a least-norm solution — not relied upon below).  The reported
offset is the fit evaluated at the window's real elapsed duration
`T_obs = tau[N-1]`. -/
def lsExplicit (N : ℕ) (data : List Obs) (impl : String) : List (ℕ × ℚ × ℚ) :=
  let t : ℕ → ℚ :=
    if impl = "t1" then fun i => (data.getD i obs0).t1 else fun i => (data.getD i obs0).t2
  (List.range (data.length + 1 - N)).map (fun i =>
    let tau : ℕ → ℚ := fun k => t (i + k) - t i
    let sx := ∑ k ∈ Finset.range N, tau k
    let sxx := ∑ k ∈ Finset.range N, tau k ^ 2
    let sy := lsQ1 (lsXs data) N i
    let sxy := ∑ k ∈ Finset.range N, tau k * lsXs data (i + k)
    let det := (N : ℚ) * sxx - sx ^ 2
    let x0 := (sxx * sy - sx * sxy) / det
    let y := ((N : ℚ) * sxy - sx * sy) / det
    (i + N - 1, x0 + y * tau (N - 1), y))

/-- `Ls.process`: learn the period when it is not finite, dispatch on the
implementation name, and emit one `(record index, x, y)` write per window,
the window starting at `i` being written at record `i + N - 1`
(`idx = np.arange(N-1, n_data)`).  An unrecognized name raises
`ValueError("Unsupported LS timestamp mode")` before anything is written. -/
def lsProcess (N : ℕ) (data : List Obs) (Tns : Option ℚ) (impl : String) :
    Except String (List (ℕ × ℚ × ℚ)) :=
  let xs := lsXs data
  let T : ℚ :=
    match Tns with
    | some t => t
    | none => meanConsecDiff (data.map (·.t1))
  if impl = "t1" ∨ impl = "t2" then
    .ok (lsExplicit N data impl)
  else if impl = "eff" then
    .ok ((List.range (data.length + 1 - N)).map (fun i =>
      (i + N - 1, lsEffXf N xs i, (lsEffTheta N xs i).2 / T)))
  else
    .error ("Unsupported LS timestamp mode")

lemma sum_range_cast (n : ℕ) :
    ∑ k ∈ Finset.range n, (k : ℚ) = n * (n - 1) / 2 := by
  induction n with
  | zero => simp
  | succ n ih =>
    rw [Finset.sum_range_succ, ih]
    push_cast
    ring

lemma sum_range_cast_sq (n : ℕ) :
    ∑ k ∈ Finset.range n, (k : ℚ) ^ 2 = n * (n - 1) * (2 * n - 1) / 6 := by
  induction n with
  | zero => simp
  | succ n ih =>
    rw [Finset.sum_range_succ, ih]
    push_cast
    ring

/-- First normal equation: `N*x0 + (sum k)*yT = Q1` holds for `Theta = P.Q`. -/
lemma lsEff_norm1 (N : ℕ) (hN : 2 ≤ N) (xs : ℕ → ℚ) (i : ℕ) :
    (N : ℚ) * (lsEffTheta N xs i).1
      + ((N : ℚ) * ((N : ℚ) - 1) / 2) * (lsEffTheta N xs i).2 = lsQ1 xs N i := by
  have h2 : (2 : ℚ) ≤ (N : ℚ) := by exact_mod_cast hN
  have hN0 : (N : ℚ) ≠ 0 := by linarith
  have hN1 : (N : ℚ) + 1 ≠ 0 := by linarith
  have hNm1 : (N : ℚ) - 1 ≠ 0 := by
    intro h
    have : (N : ℚ) = 1 := by linarith
    linarith
  simp only [lsEffTheta]
  field_simp
  ring

/-- Second normal equation: `(sum k)*x0 + (sum k^2)*yT = Q2`. -/
lemma lsEff_norm2 (N : ℕ) (hN : 2 ≤ N) (xs : ℕ → ℚ) (i : ℕ) :
    ((N : ℚ) * ((N : ℚ) - 1) / 2) * (lsEffTheta N xs i).1
      + ((N : ℚ) * ((N : ℚ) - 1) * (2 * (N : ℚ) - 1) / 6) * (lsEffTheta N xs i).2
      = lsQ2 xs N i := by
  have h2 : (2 : ℚ) ≤ (N : ℚ) := by exact_mod_cast hN
  have hN0 : (N : ℚ) ≠ 0 := by linarith
  have hN1 : (N : ℚ) + 1 ≠ 0 := by linarith
  have hNm1 : (N : ℚ) - 1 ≠ 0 := by
    intro h
    have : (N : ℚ) = 1 := by linarith
    linarith
  simp only [lsEffTheta]
  field_simp
  ring

lemma sum_linear (N : ℕ) (f : ℕ → ℚ) (c d : ℚ) :
    ∑ k ∈ Finset.range N, (f k - (c + d * k))
      = (∑ k ∈ Finset.range N, f k)
        - ((N : ℚ) * c + d * ∑ k ∈ Finset.range N, (k : ℚ)) := by
  rw [Finset.sum_sub_distrib, Finset.sum_add_distrib, Finset.sum_const,
    Finset.card_range, nsmul_eq_mul, Finset.mul_sum]

lemma sum_linear_mul (N : ℕ) (f : ℕ → ℚ) (c d : ℚ) :
    ∑ k ∈ Finset.range N, (k : ℚ) * (f k - (c + d * k))
      = (∑ k ∈ Finset.range N, (k : ℚ) * f k)
        - (c * ∑ k ∈ Finset.range N, (k : ℚ) + d * ∑ k ∈ Finset.range N, (k : ℚ) ^ 2) := by
  have h : ∀ k ∈ Finset.range N,
      (k : ℚ) * (f k - (c + d * k)) = (k : ℚ) * f k - (c * k + d * (k : ℚ) ^ 2) :=
    fun k _ => by ring
  rw [Finset.sum_congr rfl h, Finset.sum_sub_distrib, Finset.sum_add_distrib,
    Finset.mul_sum, Finset.mul_sum]

/-- The residuals of `Theta = P.Q` sum to zero over the window. -/
lemma lsEff_res1 (N : ℕ) (hN : 2 ≤ N) (xs : ℕ → ℚ) (i : ℕ) :
    ∑ k ∈ Finset.range N,
      (xs (i + k) - ((lsEffTheta N xs i).1 + (lsEffTheta N xs i).2 * k)) = 0 := by
  rw [sum_linear, sum_range_cast]
  have h := lsEff_norm1 N hN xs i
  rw [lsQ1] at h
  linear_combination -h

/-- The index-weighted residuals of `Theta = P.Q` sum to zero. -/
lemma lsEff_res2 (N : ℕ) (hN : 2 ≤ N) (xs : ℕ → ℚ) (i : ℕ) :
    ∑ k ∈ Finset.range N,
      (k : ℚ) * (xs (i + k) - ((lsEffTheta N xs i).1 + (lsEffTheta N xs i).2 * k)) = 0 := by
  rw [sum_linear_mul, sum_range_cast, sum_range_cast_sq]
  have h := lsEff_norm2 N hN xs i
  rw [lsQ2] at h
  linear_combination -h

/-- **C2.** For a trace of length `≥ N` with `N ≥ 2`, `Ls.process` in "eff"
mode writes, at record index `i + N - 1` of each window starting at `i`, the
value `x0 + yT*(N-1)` where `(x0, yT) = P.(Q1, Q2)` is obtained by applying
the constant window-length-only 2x2 matrix `P` to the two window sums; and
that pair is the ordinary-least-squares line fit of the window's `x_est`
values against the integer indices `0..N-1`: it minimizes the sum of squared
residuals over all candidate lines `a + b*k`, independently of the window's
content. -/
theorem claim2_ls_eff_ols (N : ℕ) (hN : 2 ≤ N) (data : List Obs) (T : ℚ)
    (hL : N ≤ data.length) :
    lsProcess N data (some T) "eff"
        = .ok ((List.range (data.length + 1 - N)).map (fun i =>
            (i + N - 1, lsEffXf N (lsXs data) i, (lsEffTheta N (lsXs data) i).2 / T)))
      ∧ ∀ (i : ℕ) (a b : ℚ),
          SSE N (fun k => lsXs data (i + k))
              (lsEffTheta N (lsXs data) i).1 (lsEffTheta N (lsXs data) i).2
            ≤ SSE N (fun k => lsXs data (i + k)) a b := by
  constructor
  · rfl
  · intro i a b
    set xs := lsXs data with hxs
    set t1 := (lsEffTheta N xs i).1 with ht1
    set t2 := (lsEffTheta N xs i).2 with ht2
    have key : ∀ k ∈ Finset.range N,
        (xs (i + k) - (a + b * k)) ^ 2
          = (xs (i + k) - (t1 + t2 * k)) ^ 2
            + ((t1 - a) + (t2 - b) * k) ^ 2
            + (2 * (t1 - a)) * (xs (i + k) - (t1 + t2 * k))
            + (2 * (t2 - b)) * ((k : ℚ) * (xs (i + k) - (t1 + t2 * k))) :=
      fun k _ => by ring
    have hexp : SSE N (fun k => xs (i + k)) a b
        = SSE N (fun k => xs (i + k)) t1 t2
          + ∑ k ∈ Finset.range N, ((t1 - a) + (t2 - b) * k) ^ 2
          + (2 * (t1 - a))
            * ∑ k ∈ Finset.range N, (xs (i + k) - (t1 + t2 * k))
          + (2 * (t2 - b))
            * ∑ k ∈ Finset.range N, (k : ℚ) * (xs (i + k) - (t1 + t2 * k)) := by
      rw [SSE, Finset.sum_congr rfl key, Finset.sum_add_distrib, Finset.sum_add_distrib,
        Finset.sum_add_distrib, Finset.mul_sum, Finset.mul_sum, SSE]
    rw [hexp, lsEff_res1 N hN xs i, lsEff_res2 N hN xs i, mul_zero, mul_zero,
      add_zero, add_zero]
    exact le_add_of_nonneg_right (Finset.sum_nonneg fun k _ => sq_nonneg _)

/-- Trace used by the closed C2 witness. -/
def dataC2 : List Obs := [{ obs0 with x_est := 1 }, { obs0 with x_est := 3 }]

/-- Closed witness for C2 at `N = 2`, `T = 1`, window `i = 0`, candidate line
`a = 5`, `b = 7`. -/
theorem claim2_witness :
    2 ≤ 2 ∧ 2 ≤ dataC2.length
      ∧ SSE 2 (fun k => lsXs dataC2 (0 + k))
            (lsEffTheta 2 (lsXs dataC2) 0).1 (lsEffTheta 2 (lsXs dataC2) 0).2
          ≤ SSE 2 (fun k => lsXs dataC2 (0 + k)) 5 7 :=
  ⟨by decide, by decide, (claim2_ls_eff_ols 2 (by decide) dataC2 1 (by decide)).2 0 5 7⟩

/-! ## Packet selection operators (`src/ptp/pktselection.py`)

Window operators over windows of `(t2-t1)` and `(t4-t3)` differences or of
`x_est` observations.  `np.amin`/`np.amax`/`np.median` of an empty vector
raise in numpy; the models return the junk value `0` there, which no theorem
relies on (windows always have length `N ≥ 1`). -/

def listMin : List ℚ → ℚ
  | [] => 0
  | a :: t => t.foldl min a

def listMax : List ℚ → ℚ
  | [] => 0
  | a :: t => t.foldl max a

/-- `np.median`: middle element of the sorted vector, or the average of the
two middle elements when the length is even. -/
def npMedian (l : List ℚ) : ℚ :=
  let s := l.insertionSort (· ≤ ·)
  if l.length % 2 = 1 then s.getD (l.length / 2) 0
  else (s.getD (l.length / 2 - 1) 0 + s.getD (l.length / 2) 0) / 2

/-- `PktSelection._sample_median`. -/
def sample_median (a b : List ℚ) : ℚ := (npMedian a - npMedian b) / 2

/-- `PktSelection._eapf`: earliest-arrival packet filter. -/
def eapf (a b : List ℚ) : ℚ := (listMin a - listMin b) / 2

/-- `PktSelection._sample_maximum`. -/
def sample_maximum (a b : List ℚ) : ℚ := (listMax a - listMax b) / 2

/-- `np.round`: round half to even (banker's rounding). -/
def npRound (x : ℚ) : ℤ :=
  if x - ⌊x⌋ = 1 / 2 then (if ⌊x⌋ % 2 = 0 then ⌊x⌋ else ⌊x⌋ + 1) else round x

/-- Occurrence count of the winning bin: `np.amax(counts)` after `np.unique`
on the quantized window (the largest multiplicity in the window). -/
def maxCount (l : List ℤ) : ℕ := l.foldr (fun v acc => max (l.count v) acc) 0

def listMinInt : List ℤ → ℤ
  | [] => 0
  | a :: t => t.foldl min a

/-- Winning bin value: `np.unique` sorts ascending and `np.argmax(counts)`
returns the first maximal count, so the winner is the smallest value among
those of maximal multiplicity (same tie-breaking as `scipy.stats.mode`). -/
def modeVal (l : List ℤ) : ℤ := listMinInt (l.filter (fun v => l.count v = maxCount l))

/-- `SAMPLE_MODE_BIN_0`: the starting quantization bin width (10 ns). -/
def SAMPLE_MODE_BIN_0 : ℚ := 10

/-- Mutable sample-mode state of the window-by-window path: current bin width
(`_sample_mode_bin`) and stall counter (`_mode_stall_cnt`). -/
structure ModeState where
  bin : ℚ
  stall : ℕ

/-- `PktSelection._sample_mode` (one window): quantize both difference
streams by the current bin width, pick each winning bin, and adapt: the stall
counter is incremented when the winning-bin occurrence count is below
`cnt_threshold` for `t2-t1` AND for `t4-t3` (and reset otherwise); once the
stall counter exceeds `stall_patience` the bin is widened by 10 and the
counter reset. -/
def sampleModeStep (cntThreshold stallPatience : ℕ) (st : ModeState)
    (a b : List ℚ) : ℚ × ModeState :=
  let binWidth := st.bin
  let halfBin := binWidth / 2
  let aq := a.map (fun x => npRound (x / binWidth))
  let bq := b.map (fun x => npRound (x / binWidth))
  let modeCntFw := maxCount aq
  let t21 : ℚ := (modeVal aq : ℚ) * binWidth + halfBin
  let modeCntBw := maxCount bq
  let t43 : ℚ := (modeVal bq : ℚ) * binWidth + halfBin
  let stall := if modeCntFw < cntThreshold ∧ modeCntBw < cntThreshold then st.stall + 1 else 0
  let st' : ModeState := if stall > stallPatience then ⟨binWidth + 10, 0⟩ else ⟨binWidth, stall⟩
  ((t21 - t43) / 2, st')

/-! ## Processing pipelines (`PktSelection.process` and helpers)

Writes into the shared records are modelled as an ordered list of
`(record index, estimate)` pairs; a raised Python exception is the second
component of the result (`some message`), with the writes already performed
before the raise kept, as mutation semantics dictate. -/

/-- `PktSelection._window` with `shift` and window length `N`: the strided
view has `len(v) - N + 1` rows; `[0::shift]` keeps the rows whose index is a
multiple of the shift.  Row `r` is the window starting at offset `r`. -/
def windowViews (v : List ℚ) (N shift : ℕ) : List (List ℚ) :=
  ((List.range (v.length + 1 - N)).filter (fun r => r % shift = 0)).map
    (fun r => (v.drop r).take N)

/-- `np.cumsum`. -/
def cumsum (l : List ℚ) : List ℚ := (l.scanl (· + ·) 0).tail

/-- Numpy array truthiness `arr.any()`: some element is nonzero. -/
def matAny (m : List (List ℚ)) : Bool :=
  m.any (fun row => row.any (fun q => decide (q ≠ 0)))

def anyNonzero (l : List ℚ) : Bool := l.any (fun q => decide (q ≠ 0))

def zipWith2d (f : ℚ → ℚ → ℚ) (m1 m2 : List (List ℚ)) : List (List ℚ) :=
  List.zipWith (List.zipWith f) m1 m2

/-- State carried across batches of `_matrix_by_matrix`: the batch index and
the two independently tuned vectorized sample-mode bin widths. -/
structure VecSt where
  iBatch : ℕ
  binFw : ℚ
  binBw : ℚ

/-- The bin tuning `while` loop of `PktSelection._sample_mode_vec`: widen each
bin independently by 10 until at most `int(0.1*n_tuning)` of the first
`n_tuning` windows have a winning-bin count below the threshold.  The source
loop is unbounded (it never terminates when `N < cnt_threshold`); the model
makes it structural with an explicit fuel argument, returning the current
widths on exhaustion.  No theorem exercises this branch. -/
def tuneBin (cntThreshold nTuning : ℕ) (a b : List (List ℚ)) :
    ℕ → ℚ → ℚ → ℚ × ℚ
  | 0, bf, bb => (bf, bb)
  | fuel + 1, bf, bb =>
    let aq := (a.take nTuning).map (·.map (fun x => npRound (x / bf)))
    let bq := (b.take nTuning).map (·.map (fun x => npRound (x / bb)))
    let badF := ((aq.map maxCount).filter (fun c => c < cntThreshold)).length
    let badB := ((bq.map maxCount).filter (fun c => c < cntThreshold)).length
    if badF > nTuning / 10 ∨ badB > nTuning / 10 then
      tuneBin cntThreshold nTuning a b fuel
        (if badF > nTuning / 10 then bf + 10 else bf)
        (if badB > nTuning / 10 then bb + 10 else bb)
    else (bf, bb)

def tuneFuel : ℕ := 1000000

/-- `PktSelection._sample_mode_vec`: tune the two bin widths on the first
batch only (`i_batch == 0`), then quantize, take the per-row winning bin of
each stream and combine. -/
def sampleModeVec (cntThreshold nTuning : ℕ) (a b : List (List ℚ))
    (vst : VecSt) : List ℚ × VecSt :=
  let p :=
    if vst.iBatch = 0 then tuneBin cntThreshold nTuning a b tuneFuel vst.binFw vst.binBw
    else (vst.binFw, vst.binBw)
  let bf := p.1
  let bb := p.2
  let aq := a.map (·.map (fun x => npRound (x / bf)))
  let bq := b.map (·.map (fun x => npRound (x / bb)))
  let t21 := aq.map (fun row => (modeVal row : ℚ) * bf + bf / 2)
  let t43 := bq.map (fun row => (modeVal row : ℚ) * bb + bb / 2)
  (List.zipWith (fun x y => (x - y) / 2) t21 t43, { vst with binFw := bf, binBw := bb })

/-- `PktSelection._vectorized`: assert the input matrices are available
(numpy truthiness — the asserts that C10 is about), remove the cumulative
drift, apply the row-wise selection operator, and re-add the window-final
cumulative drift.  Unknown strategies raise
`ValueError("Strategy choice %s unknown")`.  Unused matrix arguments are
passed as `[]` (the source passes `None` and never touches them). -/
def vectorized (strategy : String) (driftComp : Bool) (driftEstW : List (List ℚ))
    (xObs aMtx bMtx : List (List ℚ)) (vst : VecSt) :
    Except String (List ℚ × VecSt) :=
  if strategy = "avg-normal" then
    if matAny xObs = false then .error ("Time offset measurement not available")
    else
      let cum := driftEstW.map cumsum
      let x := if driftComp then zipWith2d (· - ·) xObs cum else xObs
      let est := x.map sample_avg_normal
      .ok ((if driftComp then
              List.zipWith (· + ·) est (cum.map (fun r => r.getLastD 0))
            else est), vst)
  else
    if matAny aMtx = false then .error ("Timestamp differences not available")
    else if matAny bMtx = false then .error ("Timestamp differences not available")
    else
      let cum := driftEstW.map cumsum
      let a := if driftComp then zipWith2d (· - ·) aMtx cum else aMtx
      let b := if driftComp then zipWith2d (· + ·) bMtx cum else bMtx
      let offsets := cum.map (fun r => r.getLastD 0)
      let res : Except String (List ℚ × VecSt) :=
        if strategy = "median" then .ok (List.zipWith sample_median a b, vst)
        else if strategy = "min" then .ok (List.zipWith eapf a b, vst)
        else if strategy = "max" then .ok (List.zipWith sample_maximum a b, vst)
        else if strategy = "mode" then .ok (sampleModeVec 3 100 a b vst)
        else .error ("Strategy choice " ++ strategy ++ " unknown")
      match res with
      | .error m => .error m
      | .ok (est, vst') =>
        .ok ((if driftComp then List.zipWith (· + ·) est offsets else est), vst')

/-- One window of `PktSelection._window_by_window`: slice the window, build
the cumulative drift over it, dispatch on the strategy, and re-add the
window-final cumulative drift. -/
def wbwEst (N : ℕ) (strategy : String) (driftComp : Bool) (data : List Obs)
    (driftEst : List ℚ) (st : ModeState) (i : ℕ) : Except String (ℚ × ModeState) :=
  let win := (data.drop i).take N
  let driftW := cumsum ((driftEst.drop i).take N)
  let res : Except String (ℚ × ModeState) :=
    if strategy = "avg-normal" then
      let xw := win.map (·.x_est)
      let xw := if driftComp then List.zipWith (· - ·) xw driftW else xw
      .ok (sample_avg_normal xw, st)
    else
      let a := win.map (fun o => o.t2 - o.t1)
      let b := win.map (fun o => o.t4 - o.t3)
      let a := if driftComp then List.zipWith (· - ·) a driftW else a
      let b := if driftComp then List.zipWith (· + ·) b driftW else b
      if strategy = "median" then .ok (sample_median a b, st)
      else if strategy = "min" then .ok (eapf a b, st)
      else if strategy = "max" then .ok (sample_maximum a b, st)
      else if strategy = "mode" then .ok (sampleModeStep 3 10 st a b)
      else .error ("Strategy choice " ++ strategy ++ " unknown")
  match res with
  | .error m => .error m
  | .ok (e, st') => .ok ((if driftComp then e + driftW.getLastD 0 else e), st')

/-- The `_window_by_window` loop over window start indices, threading the
sample-mode state; the estimate of the window starting at `i` is written at
record `i + N - 1`. -/
def wbwLoop (N : ℕ) (strategy : String) (driftComp : Bool) (data : List Obs)
    (driftEst : List ℚ) : List ℕ → ModeState → List (ℕ × ℚ) × Option String
  | [], _ => ([], none)
  | i :: rest, st =>
    match wbwEst N strategy driftComp data driftEst st i with
    | .error m => ([], some m)
    | .ok (e, st') =>
      let r := wbwLoop N strategy driftComp data driftEst rest st'
      ((i + N - 1, e) :: r.1, r.2)

/-- `PktSelection._window_by_window`: one window per start index
`0 .. len(data) - N` (empty when the trace is shorter than `N`). -/
def windowByWindow (N : ℕ) (strategy : String) (driftComp : Bool)
    (data : List Obs) (driftEst : List ℚ) : List (ℕ × ℚ) × Option String :=
  wbwLoop N strategy driftComp data driftEst
    (List.range (data.length + 1 - N)) ⟨SAMPLE_MODE_BIN_0, 0⟩

/-- One batch of `_matrix_by_matrix`: window the batch's sample slice, from
`i_s = i_w_s*new_per_win` to `i_e = i_s + (batch_size-1)*new_per_win + N`
(clamped by the slice), with shift `new_per_win = N - win_overlap`, and run
the vectorized operator on the stacked windows. -/
def mbmBatch (N : ℕ) (strategy : String) (driftComp : Bool) (data : List Obs)
    (driftEst : List ℚ) (bs w0 : ℕ) (vst : VecSt) :
    Except String (List ℚ × VecSt) :=
  let newPerWin := N - (N - 1)
  let iS := w0 * newPerWin
  let len := (bs - 1) * newPerWin + N
  let driftW := windowViews ((driftEst.drop iS).take len) N newPerWin
  if strategy = "avg-normal" then
    vectorized strategy driftComp driftW
      (windowViews (((data.drop iS).take len).map (·.x_est)) N newPerWin) [] [] vst
  else
    vectorized strategy driftComp driftW []
      (windowViews (((data.drop iS).take len).map (fun o => o.t2 - o.t1)) N newPerWin)
      (windowViews (((data.drop iS).take len).map (fun o => o.t4 - o.t3)) N newPerWin)
      vst

def mbmLoop (N : ℕ) (strategy : String) (driftComp : Bool) (data : List Obs)
    (driftEst : List ℚ) (bs : ℕ) : List ℕ → VecSt → List (ℕ × ℚ) × Option String
  | [], _ => ([], none)
  | w0 :: rest, vst0 =>
    match mbmBatch N strategy driftComp data driftEst bs w0
        { vst0 with iBatch := w0 / bs } with
    | .error m => ([], some m)
    | .ok (ests, vst') =>
      let ws := (List.range ests.length).map
        (fun j => (w0 * (N - (N - 1)) + j * (N - (N - 1)) + N - 1, ests.getD j 0))
      let rest' := mbmLoop N strategy driftComp data driftEst bs rest vst'
      (ws ++ rest'.1, rest'.2)

/-- `PktSelection._matrix_by_matrix`: fully overlapping windows
(`win_overlap = N-1`, `new_per_win = 1`), `n_windows = len(data) - N + 1`
truncated at zero (Python's negative count makes the batch range empty), and
batch starts `range(0, n_windows, batch_size)`.  With batching disabled the
batch size is `n_windows` itself; when that is zero, Python's
`range(0, 0, 0)` raises `ValueError("range() arg 3 must not be zero")`. -/
def mbmStarts (L N bs : ℕ) : List ℕ :=
  (List.range ((L + 1 - N + bs - 1) / bs)).map (· * bs)

def matrixByMatrix (N : ℕ) (strategy : String) (driftComp : Bool)
    (data : List Obs) (driftEst : List ℚ) (batch : Bool) (batchSize : ℕ) :
    List (ℕ × ℚ) × Option String :=
  let nWindows := data.length + 1 - N
  let bs := if batch then batchSize else nWindows
  if bs = 0 then ([], some ("range() arg 3 must not be zero"))
  else
    mbmLoop N strategy driftComp data driftEst bs
      (mbmStarts data.length N bs)
      ⟨0, SAMPLE_MODE_BIN_0, SAMPLE_MODE_BIN_0⟩

/-- The `_sample_by_sample` loop: accumulate the drift, feed the
drift-removed observation to the recursive estimator, and write the estimate
plus the accumulated drift at the sample's own index. -/
def sbsLoop (N : ℕ) (strategy : String) (driftComp : Bool) (data : List Obs)
    (driftEst : List ℚ) :
    List ℕ → ℚ × MAvg × EwmaSt → List (ℕ × ℚ) × Option String
  | [], _ => ([], none)
  | i :: rest, acc =>
    let driftAccum := if driftComp then acc.1 + driftEst.getD i 0 else acc.1
    let xi := (data.getD i obs0).x_est - driftAccum
    let r : Except String (ℚ × MAvg × EwmaSt) :=
      if strategy = "avg-recursive" then
        let p := mavgStep N acc.2.1 xi
        .ok (p.1, p.2, acc.2.2)
      else if strategy = "ewma" then
        let p := ewmaStep N acc.2.2 xi
        .ok (p.1, acc.2.1, p.2)
      else .error ("Strategy choice " ++ strategy ++ " unknown")
    match r with
    | .error m => ([], some m)
    | .ok (e, ma', ew') =>
      let rest' := sbsLoop N strategy driftComp data driftEst rest (driftAccum, ma', ew')
      ((i, e + driftAccum) :: rest'.1, rest'.2)

/-- `PktSelection._sample_by_sample` on a fresh instance. -/
def sampleBySample (N : ℕ) (strategy : String) (driftComp : Bool)
    (data : List Obs) (driftEst : List ℚ) : List (ℕ × ℚ) × Option String :=
  sbsLoop N strategy driftComp data driftEst
    (List.range data.length) (0, mavgInit N, ewmaInit)

/-- `PktSelection.process`: build the drift vector (zeros, filled from the
records' "drift" keys when drift compensation is on), assert it is populated
(`assert(drift_est.any())`), and dispatch: the two recursive strategies go
sample-by-sample, otherwise vectorization selects matrix-by-matrix or
window-by-window processing. -/
def pktProcess (N : ℕ) (data : List Obs) (strategy : String)
    (driftComp vectorize batch : Bool) (batchSize : ℕ) :
    List (ℕ × ℚ) × Option String :=
  let driftEst : List ℚ :=
    if driftComp then data.map (fun r => r.drift.getD 0)
    else List.replicate data.length 0
  if driftComp ∧ anyNonzero driftEst = false then
    ([], some ("Drift estimations not available"))
  else if strategy = "avg-recursive" ∨ strategy = "ewma" then
    sampleBySample N strategy driftComp data driftEst
  else if vectorize then
    matrixByMatrix N strategy driftComp data driftEst batch batchSize
  else
    windowByWindow N strategy driftComp data driftEst

/-! ## Helper lemmas -/

lemma zipWith_map_same {α β γ δ : Type} (F : β → γ → δ) (u : α → β) (w : α → γ)
    (l : List α) :
    List.zipWith F (l.map u) (l.map w) = l.map (fun a => F (u a) (w a)) := by
  induction l with
  | nil => rfl
  | cons a t ih => simp [ih]

lemma getD_map_range {α : Type} (f : ℕ → α) (d : α) (n r : ℕ) (h : r < n) :
    ((List.range n).map f).getD r d = f r := by
  have hlen : r < ((List.range n).map f).length := by simpa
  rw [List.getD_eq_getElem?_getD, List.getElem?_eq_getElem hlen, List.getElem_map,
    List.getElem_range]
  rfl

/-- **C8.** If no record in the trace has a populated `drift` field, then
`PktSelection.process` invoked with drift compensation enabled fails with the
missing-data assertion `"Drift estimations not available"` — for any strategy
and any processing mode — and no estimate is written to any record (the
writes list of the result is empty). -/
theorem claim8_missing_drift (N : ℕ) (data : List Obs) (strategy : String)
    (vectorize batch : Bool) (batchSize : ℕ)
    (h : ∀ r ∈ data, r.drift = none) :
    pktProcess N data strategy true vectorize batch batchSize
      = ([], some ("Drift estimations not available")) := by
  have hz : anyNonzero (data.map (fun r => r.drift.getD 0)) = false := by
    rw [anyNonzero, List.any_eq_false]
    intro x hx
    rcases List.mem_map.mp hx with ⟨r, hr, hrx⟩
    rw [h r hr] at hrx
    simp [← hrx]
  simp [pktProcess, hz]

/-- Closed witness for C8: a one-record trace with no `drift` key, median
strategy, default processing flags. -/
theorem claim8_witness :
    (∀ r ∈ [obs0], r.drift = none)
      ∧ pktProcess 3 [obs0] "median" true true true 4096
          = ([], some ("Drift estimations not available")) :=
  ⟨by decide, claim8_missing_drift 3 [obs0] "median" true true 4096 (by decide)⟩

/-! ## Equivalence of window-by-window and matrix-by-matrix processing -/

/-- The four stateless window strategies (every window-based strategy other
than the mode one). -/
def isPlainStrategy (s : String) : Prop :=
  s = "avg-normal" ∨ s = "median" ∨ s = "min" ∨ s = "max"

/-- The common estimate a single window produces, as a function of the raw
window rows (drift increments, `x_est`, `t2-t1`, `t4-t3`): subtract the
cumulative drift, apply the operator, re-add the window-final cumulative
drift. -/
def rowEstimate (s : String) (dc : Bool) (dRow xRow aRow bRow : List ℚ) : ℚ :=
  let cum := cumsum dRow
  let base :=
    if s = "avg-normal" then
      sample_avg_normal (if dc then List.zipWith (· - ·) xRow cum else xRow)
    else
      let a' := if dc then List.zipWith (· - ·) aRow cum else aRow
      let b' := if dc then List.zipWith (· + ·) bRow cum else bRow
      if s = "median" then sample_median a' b'
      else if s = "min" then eapf a' b'
      else if s = "max" then sample_maximum a' b'
      else 0
  if dc then base + cum.getLastD 0 else base

/-- The estimate of the window starting at record `i`. -/
def pkEst (N : ℕ) (s : String) (dc : Bool) (data : List Obs)
    (driftEst : List ℚ) (i : ℕ) : ℚ :=
  rowEstimate s dc ((driftEst.drop i).take N)
    (((data.map (·.x_est)).drop i).take N)
    (((data.map (fun o => o.t2 - o.t1)).drop i).take N)
    (((data.map (fun o => o.t4 - o.t3)).drop i).take N)

lemma wbwEst_ok (N : ℕ) (s : String) (hs : isPlainStrategy s) (dc : Bool)
    (data : List Obs) (driftEst : List ℚ) (st : ModeState) (i : ℕ) :
    wbwEst N s dc data driftEst st i = .ok (pkEst N s dc data driftEst i, st) := by
  have hm : ∀ f : Obs → ℚ,
      ((data.drop i).take N).map f = ((data.map f).drop i).take N := by
    intro f
    rw [List.map_take, List.map_drop]
  rcases hs with h | h | h | h <;> subst h <;>
    simp [wbwEst, pkEst, rowEstimate, hm]

lemma wbwLoop_plain (N : ℕ) (s : String) (hs : isPlainStrategy s) (dc : Bool)
    (data : List Obs) (driftEst : List ℚ) :
    ∀ (idxs : List ℕ) (st : ModeState),
      wbwLoop N s dc data driftEst idxs st
        = (idxs.map (fun i => (i + N - 1, pkEst N s dc data driftEst i)), none) := by
  intro idxs
  induction idxs with
  | nil => intro st; rfl
  | cons i rest ih =>
    intro st
    rw [wbwLoop, wbwEst_ok N s hs dc data driftEst st i]
    simp [ih st]

lemma windowByWindow_plain (N : ℕ) (s : String) (hs : isPlainStrategy s) (dc : Bool)
    (data : List Obs) (driftEst : List ℚ) :
    windowByWindow N s dc data driftEst
      = ((List.range (data.length + 1 - N)).map
          (fun i => (i + N - 1, pkEst N s dc data driftEst i)), none) :=
  wbwLoop_plain N s hs dc data driftEst _ _

lemma windowViews_one (v : List ℚ) (N : ℕ) :
    windowViews v N 1
      = (List.range (v.length + 1 - N)).map (fun r => (v.drop r).take N) := by
  simp [windowViews, Nat.mod_one]

/-- With fully overlapping windows, the windowed view of the batch slice
`v[w0 : w0 + (bs-1) + N]` has `min bs (nWindows - w0)` rows, row `r` being the
window of the full vector starting at `w0 + r`. -/
lemma windowViews_slice (v : List ℚ) (N bs w0 : ℕ) (hN : 1 ≤ N) (hbs : 1 ≤ bs)
    (hw0 : w0 + N ≤ v.length) :
    windowViews ((v.drop w0).take (bs - 1 + N)) N 1
      = (List.range (min bs (v.length + 1 - N - w0))).map
          (fun r => (v.drop (w0 + r)).take N) := by
  rw [windowViews_one]
  have hlen : ((v.drop w0).take (bs - 1 + N)).length
      = min (bs - 1 + N) (v.length - w0) := by
    simp [List.length_take, List.length_drop]
  have hrows : ((v.drop w0).take (bs - 1 + N)).length + 1 - N
      = min bs (v.length + 1 - N - w0) := by
    rw [hlen]
    omega
  rw [hrows]
  apply List.map_congr_left
  intro r hr
  have hrb : r < min bs (v.length + 1 - N - w0) := List.mem_range.mp hr
  have hr1 : r < bs := lt_of_lt_of_le hrb (min_le_left _ _)
  rw [List.drop_take, List.drop_drop, List.take_take]
  congr 1
  exact Nat.min_eq_left (by omega)

lemma rowEstimate_x_irrel (s : String) (hs : s ≠ "avg-normal") (dc : Bool)
    (d x x' a b : List ℚ) :
    rowEstimate s dc d x a b = rowEstimate s dc d x' a b := by
  simp [rowEstimate, hs]

lemma rowEstimate_ab_irrel (dc : Bool) (d x a b a' b' : List ℚ) :
    rowEstimate "avg-normal" dc d x a b = rowEstimate "avg-normal" dc d x a' b' := by
  simp [rowEstimate]

lemma vectorized_avg_rows (dc : Bool) (rows : ℕ) (dRow xRow : ℕ → List ℚ)
    (vst : VecSt) (h : matAny ((List.range rows).map xRow) = true) :
    vectorized "avg-normal" dc ((List.range rows).map dRow)
        ((List.range rows).map xRow) [] [] vst
      = .ok ((List.range rows).map
          (fun r => rowEstimate "avg-normal" dc (dRow r) (xRow r) [] []), vst) := by
  cases dc <;>
    simp [vectorized, rowEstimate, h, zipWith2d, zipWith_map_same, List.map_map,
      Function.comp_def]

lemma vectorized_diff_rows (s : String) (hs : s = "median" ∨ s = "min" ∨ s = "max")
    (dc : Bool) (rows : ℕ) (dRow aRow bRow : ℕ → List ℚ) (vst : VecSt)
    (ha : matAny ((List.range rows).map aRow) = true)
    (hb : matAny ((List.range rows).map bRow) = true) :
    vectorized s dc ((List.range rows).map dRow) []
        ((List.range rows).map aRow) ((List.range rows).map bRow) vst
      = .ok ((List.range rows).map
          (fun r => rowEstimate s dc (dRow r) [] (aRow r) (bRow r)), vst) := by
  rcases hs with h | h | h <;> subst h <;> cases dc <;>
    simp [vectorized, rowEstimate, ha, hb, zipWith2d, zipWith_map_same, List.map_map,
      Function.comp_def]

lemma map_slice (f : Obs → ℚ) (data : List Obs) (i n : ℕ) :
    ((data.drop i).take n).map f = ((data.map f).drop i).take n := by
  rw [List.map_take, List.map_drop]

/-- The numpy truthiness assertions of `_vectorized` hold on the stacked
input matrices of the batch starting at window `w0`. -/
def batchOK (s : String) (N bs : ℕ) (data : List Obs) (w0 : ℕ) : Prop :=
  if s = "avg-normal" then
    matAny (windowViews (((data.map (·.x_est)).drop w0).take (bs - 1 + N)) N 1) = true
  else
    matAny (windowViews
        (((data.map (fun o => o.t2 - o.t1)).drop w0).take (bs - 1 + N)) N 1) = true
      ∧ matAny (windowViews
          (((data.map (fun o => o.t4 - o.t3)).drop w0).take (bs - 1 + N)) N 1) = true

instance batchOKDec (s : String) (N bs : ℕ) (data : List Obs) (w0 : ℕ) :
    Decidable (batchOK s N bs data w0) :=
  if h : s = "avg-normal" then
    decidable_of_iff
      (matAny (windowViews
          (((data.map (·.x_est)).drop w0).take (bs - 1 + N)) N 1) = true)
      (by rw [batchOK, if_pos h])
  else
    decidable_of_iff
      (matAny (windowViews
            (((data.map (fun o => o.t2 - o.t1)).drop w0).take (bs - 1 + N)) N 1) = true
        ∧ matAny (windowViews
            (((data.map (fun o => o.t4 - o.t3)).drop w0).take (bs - 1 + N)) N 1) = true)
      (by rw [batchOK, if_neg h])

lemma mbmBatch_plain (N : ℕ) (s : String) (hs : isPlainStrategy s) (dc : Bool)
    (data : List Obs) (driftEst : List ℚ) (bs w0 : ℕ) (vst : VecSt)
    (hN : 1 ≤ N) (hbs : 1 ≤ bs) (hlen : driftEst.length = data.length)
    (hw0 : w0 + N ≤ data.length) (hbok : batchOK s N bs data w0) :
    mbmBatch N s dc data driftEst bs w0 vst
      = .ok ((List.range (min bs (data.length + 1 - N - w0))).map
          (fun r => pkEst N s dc data driftEst (w0 + r)), vst) := by
  have hnpw : N - (N - 1) = 1 := by omega
  have hdw : windowViews ((driftEst.drop (w0 * (N - (N - 1)))).take
        ((bs - 1) * (N - (N - 1)) + N)) N (N - (N - 1))
      = (List.range (min bs (data.length + 1 - N - w0))).map
          (fun r => (driftEst.drop (w0 + r)).take N) := by
    rw [hnpw, mul_one, mul_one,
      windowViews_slice driftEst N bs w0 hN hbs (by omega), hlen]
  have hxf : ∀ f : Obs → ℚ,
      windowViews ((((data.drop (w0 * (N - (N - 1)))).take
          ((bs - 1) * (N - (N - 1)) + N)).map f)) N (N - (N - 1))
        = (List.range (min bs (data.length + 1 - N - w0))).map
            (fun r => (((data.map f).drop (w0 + r)).take N)) := by
    intro f
    rw [hnpw, mul_one, mul_one, map_slice,
      windowViews_slice (data.map f) N bs w0 hN hbs (by rw [List.length_map]; omega),
      List.length_map]
  by_cases hA : s = "avg-normal"
  · subst hA
    rw [batchOK, if_pos rfl,
      windowViews_slice (data.map (·.x_est)) N bs w0 hN hbs
        (by rw [List.length_map]; omega), List.length_map] at hbok
    rw [mbmBatch]
    simp only [hdw, hxf]
    rw [if_pos trivial]
    rw [vectorized_avg_rows dc _ _ _ vst hbok]
    refine congrArg (fun l => Except.ok (l, vst)) ?_
    apply List.map_congr_left
    intro r _
    rw [pkEst]
    exact rowEstimate_ab_irrel dc _ _ [] [] _ _
  · have hdiff : s = "median" ∨ s = "min" ∨ s = "max" := by
      rcases hs with h | h | h | h
      · exact absurd h hA
      · exact Or.inl h
      · exact Or.inr (Or.inl h)
      · exact Or.inr (Or.inr h)
    rw [batchOK, if_neg hA] at hbok
    obtain ⟨ha, hb⟩ := hbok
    rw [windowViews_slice (data.map (fun o => o.t2 - o.t1)) N bs w0 hN hbs
      (by rw [List.length_map]; omega), List.length_map] at ha
    rw [windowViews_slice (data.map (fun o => o.t4 - o.t3)) N bs w0 hN hbs
      (by rw [List.length_map]; omega), List.length_map] at hb
    rw [mbmBatch]
    simp only [hdw, hxf, if_neg hA]
    rw [vectorized_diff_rows s hdiff dc _ _ _ _ vst ha hb]
    congr 1
    congr 1
    apply List.map_congr_left
    intro r _
    exact rowEstimate_x_irrel s hA dc _ [] _ _ _

lemma mbmLoop_plain (N : ℕ) (s : String) (hs : isPlainStrategy s) (dc : Bool)
    (data : List Obs) (driftEst : List ℚ) (bs : ℕ) (hN : 1 ≤ N) (hbs : 1 ≤ bs)
    (hlen : driftEst.length = data.length) :
    ∀ (starts : List ℕ) (vst : VecSt),
      (∀ w0 ∈ starts, w0 + N ≤ data.length ∧ batchOK s N bs data w0) →
      mbmLoop N s dc data driftEst bs starts vst
        = ((starts.map (fun w0 =>
            (List.range (min bs (data.length + 1 - N - w0))).map
              (fun r => (w0 + r + N - 1, pkEst N s dc data driftEst (w0 + r))))).flatten,
           none) := by
  intro starts
  induction starts with
  | nil => intro vst _; rfl
  | cons w0 rest ih =>
    intro vst hok
    obtain ⟨hw0, hbok⟩ := hok w0 (List.mem_cons_self w0 rest)
    have hnpw : N - (N - 1) = 1 := by omega
    rw [mbmLoop,
      mbmBatch_plain N s hs dc data driftEst bs w0 _ hN hbs hlen hw0 hbok]
    simp only
    rw [ih _ (fun w hw => hok w (List.mem_cons_of_mem w0 hw))]
    simp only [List.map_cons, List.flatten_cons]
    refine congrArg₂ Prod.mk ?_ rfl
    congr 1
    rw [List.length_map, List.length_range]
    apply List.map_congr_left
    intro j hj
    have hjr : j < min bs (data.length + 1 - N - w0) := List.mem_range.mp hj
    rw [getD_map_range _ _ _ _ hjr, hnpw, mul_one, mul_one]

/-- Splitting `0..n-1` into ceil(n/bs) chunks of size `bs` enumerates exactly
`0..n-1`: the spine of the batched write pattern. -/
lemma chunks_flatten {α : Type} (bs : ℕ) (hbs : 1 ≤ bs) :
    ∀ (n : ℕ) (g : ℕ → α),
      (((List.range ((n + bs - 1) / bs)).map (· * bs)).map
          (fun w0 => (List.range (min bs (n - w0))).map (fun r => g (w0 + r)))).flatten
        = (List.range n).map g := by
  intro n
  induction n using Nat.strong_induction_on with
  | _ n ih =>
    intro g
    rcases Nat.eq_zero_or_pos n with hn | hn
    · subst hn
      have h0 : (0 + bs - 1) / bs = 0 := Nat.div_eq_of_lt (by omega)
      rw [h0]
      rfl
    rcases Nat.le_total n bs with hnb | hnb
    · -- a single (possibly partial) batch
      have h1 : (n + bs - 1) / bs = 1 :=
        Nat.div_eq_of_lt_le (by omega) (by omega)
      rw [h1]
      have hmin : min bs (n - 0) = n := by omega
      have hone : List.range 1 = [0] := rfl
      rw [hone]
      simp only [List.map_cons, List.map_nil, List.flatten_cons, List.flatten_nil,
        List.append_nil, Function.comp_apply, Nat.zero_mul]
      rw [hmin]
      apply List.map_congr_left
      intro r _
      rw [Nat.zero_add]
    · -- peel off the first full batch and recurse on n - bs
      have hq : (n + bs - 1) / bs = (n - bs + bs - 1) / bs + 1 := by
        have : n + bs - 1 = (n - bs + bs - 1) + bs := by omega
        rw [this, Nat.add_div_right _ (by omega)]
      rw [hq, List.range_succ_eq_map]
      simp only [List.map_cons, List.flatten_cons, Nat.zero_mul, List.map_map]
      have hfirst : (List.range (min bs (n - 0))).map (fun r => g (0 + r))
          = (List.range bs).map g := by
        have : min bs (n - 0) = bs := by omega
        rw [this]
        apply List.map_congr_left
        intro r _
        rw [Nat.zero_add]
      have hrest :
          (List.map ((fun w0 => (List.range (min bs (n - w0))).map (fun r => g (w0 + r)))
              ∘ (fun x => x * bs) ∘ Nat.succ) (List.range ((n - bs + bs - 1) / bs))).flatten
            = (List.range (n - bs)).map (fun x => g (bs + x)) := by
        have hmap :
            List.map ((fun w0 => (List.range (min bs (n - w0))).map (fun r => g (w0 + r)))
                ∘ (fun x => x * bs) ∘ Nat.succ) (List.range ((n - bs + bs - 1) / bs))
              = ((List.range ((n - bs + bs - 1) / bs)).map (· * bs)).map
                  (fun w0 => (List.range (min bs (n - bs - w0))).map
                    (fun r => g (bs + (w0 + r)))) := by
          rw [List.map_map]
          apply List.map_congr_left
          intro i _
          simp only [Function.comp_apply]
          have harg : Nat.succ i * bs = i * bs + bs := Nat.succ_mul i bs
          rw [harg]
          have hmin : min bs (n - (i * bs + bs)) = min bs (n - bs - i * bs) := by omega
          rw [hmin]
          apply List.map_congr_left
          intro r _
          congr 1
          omega
        rw [hmap, ih (n - bs) (by omega) (fun x => g (bs + x))]
      rw [hfirst, hrest]
      have hsplit : n = bs + (n - bs) := by omega
      conv_rhs => rw [hsplit, List.range_add, List.map_append, List.map_map]
      rfl

/-- Under the preconditions of the batched path, `_matrix_by_matrix` produces
exactly one write per window, in window order, each window's `pkEst` at the
window's last record index. -/
lemma matrixByMatrix_plain (N : ℕ) (s : String) (hs : isPlainStrategy s) (dc : Bool)
    (data : List Obs) (driftEst : List ℚ) (batch : Bool) (batchSize : ℕ)
    (hN : 1 ≤ N) (hL : N ≤ data.length) (hlen : driftEst.length = data.length)
    (hbs : 1 ≤ (if batch then batchSize else data.length + 1 - N))
    (hok : ∀ w0 ∈ mbmStarts data.length N (if batch then batchSize else data.length + 1 - N),
        batchOK s N (if batch then batchSize else data.length + 1 - N) data w0) :
    matrixByMatrix N s dc data driftEst batch batchSize
      = ((List.range (data.length + 1 - N)).map
          (fun i => (i + N - 1, pkEst N s dc data driftEst i)), none) := by
  set bs := if batch then batchSize else data.length + 1 - N with hbsdef
  have hbound : ∀ w0 ∈ mbmStarts data.length N bs, w0 + N ≤ data.length := by
    intro w0 hw0
    rw [mbmStarts] at hw0
    rcases List.mem_map.mp hw0 with ⟨i, hi, hiw⟩
    have hic : i < (data.length + 1 - N + bs - 1) / bs := List.mem_range.mp hi
    have hdiv : (data.length + 1 - N + bs - 1) / bs * bs ≤ data.length + 1 - N + bs - 1 :=
      Nat.div_mul_le_self _ _
    have hmul : (i + 1) * bs ≤ (data.length + 1 - N + bs - 1) / bs * bs :=
      Nat.mul_le_mul_right bs hic
    have : i * bs + bs ≤ data.length + 1 - N + bs - 1 := by
      calc i * bs + bs = (i + 1) * bs := by ring
        _ ≤ _ := le_trans hmul hdiv
    omega
  rw [matrixByMatrix]
  simp only [← hbsdef]
  rw [if_neg (by omega)]
  rw [mbmLoop_plain N s hs dc data driftEst bs hN (by omega) hlen _ _
    (fun w0 hw0 => ⟨hbound w0 hw0, hok w0 hw0⟩)]
  rw [mbmStarts]
  rw [chunks_flatten bs (by omega) (data.length + 1 - N)
    (fun i => (i + N - 1, pkEst N s dc data driftEst i))]

lemma matAny_true (m : List (List ℚ)) (row : List ℚ) (hrow : row ∈ m) (q : ℚ)
    (hq : q ∈ row) (hnz : q ≠ 0) : matAny m = true := by
  rw [matAny, List.any_eq_true]
  refine ⟨row, hrow, ?_⟩
  rw [List.any_eq_true]
  exact ⟨q, hq, by simp [hnz]⟩

lemma matAny_false (m : List (List ℚ)) (h : ∀ row ∈ m, ∀ q ∈ row, q = 0) :
    matAny m = false := by
  rw [matAny, List.any_eq_false]
  intro row hrow
  rw [Bool.not_eq_true, List.any_eq_false]
  intro q hq
  simp [h row hrow q hq]

lemma mbmStarts_cons (L N bs : ℕ) (hbs : 1 ≤ bs) (hw : 1 ≤ L + 1 - N) :
    ∃ tail, mbmStarts L N bs = 0 :: tail := by
  rw [mbmStarts]
  have hpos : 1 ≤ (L + 1 - N + bs - 1) / bs := by
    rw [Nat.le_div_iff_mul_le (by omega)]
    omega
  obtain ⟨c, hcc⟩ : ∃ c, (L + 1 - N + bs - 1) / bs = c + 1 :=
    ⟨_, (Nat.succ_pred_eq_of_pos hpos).symm⟩
  rw [hcc, List.range_succ_eq_map]
  exact ⟨((List.range c).map Nat.succ).map (· * bs), by simp⟩

/-- **C1 (amended).** For every window length `N ≤ L`, every window-based
strategy other than mode (avg-normal, median, min, max), drift compensation
on or off, and any positive batch size with batching enabled or disabled:
provided each batch's stacked input matrix passes the vectorized path's
truthiness assertions (`batchOK`, i.e. it contains some nonzero entry),
window-by-window processing and vectorized matrix/batch processing produce
identical results — the same estimates at the same record indices (each
window's estimate at the window's last index), and the same error status. -/
theorem claim1_wbw_mbm_equiv (N : ℕ) (strategy : String)
    (hs : isPlainStrategy strategy) (driftComp batch : Bool) (batchSize : ℕ)
    (data : List Obs) (hN : 1 ≤ N) (hL : N ≤ data.length)
    (hbs : 1 ≤ (if batch then batchSize else data.length + 1 - N))
    (hok : ∀ w0 ∈ mbmStarts data.length N
        (if batch then batchSize else data.length + 1 - N),
        batchOK strategy N (if batch then batchSize else data.length + 1 - N) data w0) :
    pktProcess N data strategy driftComp true batch batchSize
      = pktProcess N data strategy driftComp false batch batchSize := by
  have hsr : ¬(strategy = "avg-recursive" ∨ strategy = "ewma") := by
    rcases hs with h | h | h | h <;> subst h <;> decide
  have hlen : (if driftComp then data.map (fun r => r.drift.getD 0)
      else List.replicate data.length 0).length = data.length := by
    cases driftComp <;> simp
  simp only [pktProcess]
  by_cases hg : driftComp ∧ anyNonzero (if driftComp then
      data.map (fun r => r.drift.getD 0) else List.replicate data.length 0) = false
  · rw [if_pos hg, if_pos hg]
  · rw [if_neg hg, if_neg hg, if_neg hsr, if_neg hsr]
    simp only [if_true, Bool.false_eq_true, if_false]
    rw [matrixByMatrix_plain N strategy hs driftComp data _ batch batchSize hN hL
        hlen hbs hok,
      windowByWindow_plain N strategy hs driftComp data _]

/-- Closed counterexample for C1 as stated: on the valid all-zero one-record
trace, with `N = 1` and the avg-normal strategy, the vectorized path fails
its truthiness assertion (writing nothing) while the window-by-window path
writes the estimate `0` at index `0` — so the two processing modes are *not*
unconditionally interchangeable. -/
theorem claim1_counterexample :
    pktProcess 1 [obs0] "avg-normal" false true true 1
      ≠ pktProcess 1 [obs0] "avg-normal" false false true 1 := by
  decide

/-- Trace used by the closed C1 witness. -/
def dataC1 : List Obs :=
  [{ obs0 with t2 := 5, t4 := 7, x_est := 1 },
   { obs0 with t2 := 4, t4 := 9, x_est := 2 },
   { obs0 with t2 := 6, t4 := 8, x_est := 3 }]

/-- Closed witness for C1 (amended) at `N = 2`, avg-normal strategy, drift
compensation off, batching enabled with batch size 1. -/
theorem claim1_witness :
    isPlainStrategy "avg-normal" ∧ 1 ≤ 2 ∧ 2 ≤ dataC1.length
      ∧ 1 ≤ (if true then 1 else dataC1.length + 1 - 2)
      ∧ (∀ w0 ∈ mbmStarts dataC1.length 2 (if true then 1 else dataC1.length + 1 - 2),
          batchOK "avg-normal" 2 (if true then 1 else dataC1.length + 1 - 2) dataC1 w0)
      ∧ pktProcess 2 dataC1 "avg-normal" false true true 1
          = pktProcess 2 dataC1 "avg-normal" false false true 1 := by
  refine ⟨Or.inl rfl, by decide, by decide, by decide, by decide, ?_⟩
  exact claim1_wbw_mbm_equiv 2 "avg-normal" (Or.inl rfl) false true 1 dataC1
    (by decide) (by decide) (by decide) (by decide)

/-! ## Invalid names and the truthiness assertion (C9, C10) -/

/-- The first batch's stacked difference matrix passes the truthiness assert
whenever some record among the first `N` has a nonzero difference. -/
lemma matAny_first_batch (f : Obs → ℚ) (data : List Obs) (N bs : ℕ)
    (hN : 1 ≤ N) (hbs : 1 ≤ bs) (hL : N ≤ data.length)
    (h : ∃ r ∈ data.take N, f r ≠ 0) :
    matAny (windowViews (((data.drop (0 * (N - (N - 1)))).take
        ((bs - 1) * (N - (N - 1)) + N)).map f) N (N - (N - 1))) = true := by
  obtain ⟨r, hr, hrnz⟩ := h
  have hnpw : N - (N - 1) = 1 := by omega
  rw [hnpw, mul_one, mul_one, map_slice,
    windowViews_slice (data.map f) N bs 0 hN hbs (by rw [List.length_map]; omega)]
  have h0mem : (0 : ℕ) ∈ List.range (min bs ((data.map f).length + 1 - N - 0)) := by
    rw [List.mem_range, List.length_map]
    omega
  refine matAny_true _ (((data.map f).drop (0 + 0)).take N) ?_ (f r) ?_ hrnz
  · exact List.mem_map_of_mem (fun r0 => ((data.map f).drop (0 + r0)).take N) h0mem
  · have heq : ((data.map f).drop (0 + 0)).take N = (data.take N).map f := by
      rw [Nat.add_zero, List.drop_zero, List.map_take]
    rw [heq]
    exact List.mem_map_of_mem f hr

lemma rowEstimate_avg_false (d x a b : List ℚ) :
    rowEstimate "avg-normal" false d x a b = sample_avg_normal x := by
  simp [rowEstimate]

lemma mbmBatch_unknown (N : ℕ) (s : String) (data : List Obs) (driftEst : List ℚ)
    (bs : ℕ) (vst : VecSt) (hN : 1 ≤ N) (hbs : 1 ≤ bs) (hL : N ≤ data.length)
    (hsA : s ≠ "avg-normal") (hsMed : s ≠ "median") (hsMin : s ≠ "min")
    (hsMax : s ≠ "max") (hsMode : s ≠ "mode")
    (ha : ∃ r ∈ data.take N, r.t2 - r.t1 ≠ 0)
    (hb : ∃ r ∈ data.take N, r.t4 - r.t3 ≠ 0) :
    mbmBatch N s false data driftEst bs 0 vst
      = .error ("Strategy choice " ++ s ++ " unknown") := by
  have haT := matAny_first_batch (fun o => o.t2 - o.t1) data N bs hN hbs hL ha
  have hbT := matAny_first_batch (fun o => o.t4 - o.t3) data N bs hN hbs hL hb
  rw [mbmBatch]
  simp only [if_neg hsA]
  rw [vectorized]
  simp only [if_neg hsA, haT, hbT, if_neg hsMed, if_neg hsMin, if_neg hsMax,
    if_neg hsMode]
  simp

lemma mbmBatch_avg_zero (N : ℕ) (data : List Obs) (driftEst : List ℚ)
    (bs : ℕ) (vst : VecSt) (h0 : ∀ r ∈ data, r.x_est = 0) :
    mbmBatch N "avg-normal" false data driftEst bs 0 vst
      = .error ("Time offset measurement not available") := by
  have hzero : matAny (windowViews (((data.drop (0 * (N - (N - 1)))).take
      ((bs - 1) * (N - (N - 1)) + N)).map (·.x_est)) N (N - (N - 1))) = false := by
    apply matAny_false
    intro row hrow q hq
    rw [windowViews] at hrow
    rcases List.mem_map.mp hrow with ⟨j, _, hrw⟩
    rw [← hrw] at hq
    have hq2 := List.mem_of_mem_drop (List.mem_of_mem_take hq)
    rcases List.mem_map.mp hq2 with ⟨o, ho, hoq⟩
    have ho2 := List.mem_of_mem_drop (List.mem_of_mem_take ho)
    rw [← hoq]
    exact h0 o ho2
  rw [mbmBatch]
  simp only [if_pos trivial]
  rw [vectorized]
  simp only [if_pos trivial, hzero]

/-- **C9.** `Ls.process` with an impl name other than "t1", "t2", "eff"
raises `ValueError("Unsupported LS timestamp mode")`, with no write to any
record; and `PktSelection.process` with a strategy name outside the supported
set raises `ValueError("Strategy choice %s unknown")` before any estimate is
written (empty writes list).  The latter holds on any trace with at least one
full window whose first window's difference streams are not entirely zero
(otherwise the truthiness assertion fires first). -/
theorem claim9_invalid_names :
    (∀ (N : ℕ) (data : List Obs) (Tns : Option ℚ) (impl : String),
        impl ≠ "t1" → impl ≠ "t2" → impl ≠ "eff" →
        lsProcess N data Tns impl = .error ("Unsupported LS timestamp mode"))
      ∧ (∀ (N : ℕ) (data : List Obs) (batch : Bool) (batchSize : ℕ)
          (strategy : String),
          1 ≤ N → N ≤ data.length → 1 ≤ batchSize →
          strategy ∉ (["avg-recursive", "ewma", "avg-normal", "median", "min",
            "max", "mode"] : List String) →
          (∃ r ∈ data.take N, r.t2 - r.t1 ≠ 0) →
          (∃ r ∈ data.take N, r.t4 - r.t3 ≠ 0) →
          pktProcess N data strategy false true batch batchSize
            = ([], some ("Strategy choice " ++ strategy ++ " unknown"))) := by
  constructor
  · intro N data Tns impl h1 h2 h3
    simp [lsProcess, h1, h2, h3]
  · intro N data batch batchSize strategy hN hL hbs hstr ha hb
    simp only [List.mem_cons, List.not_mem_nil, or_false, not_or] at hstr
    obtain ⟨hs1, hs2, hs3, hs4, hs5, hs6, hs7⟩ := hstr
    have hsr : ¬(strategy = "avg-recursive" ∨ strategy = "ewma") := by
      simp [hs1, hs2]
    have hbseff : 1 ≤ (if batch then batchSize else data.length + 1 - N) := by
      cases batch
      · rw [if_neg (by decide : ¬ (false = true))]
        omega
      · rw [if_pos rfl]
        omega
    simp only [pktProcess]
    rw [if_neg (by simp), if_neg hsr, if_pos trivial]
    rw [matrixByMatrix]
    rw [if_neg (by omega)]
    obtain ⟨tail, htail⟩ := mbmStarts_cons data.length N
      (if batch then batchSize else data.length + 1 - N) hbseff (by omega)
    rw [htail, mbmLoop,
      mbmBatch_unknown N strategy data _ _ _ hN hbseff hL hs3 hs4 hs5 hs6 hs7 ha hb]

/-- Closed witness for C9: `impl = "bogus"` on the LS estimator and
`strategy = "bogus"` on the packet-selection engine. -/
theorem claim9_witness :
    lsProcess 2 [] none "bogus" = .error ("Unsupported LS timestamp mode")
      ∧ pktProcess 2 dataC1 "bogus" false true true 4096
          = ([], some ("Strategy choice bogus unknown")) := by
  constructor
  · exact claim9_invalid_names.1 2 [] none "bogus" (by decide) (by decide) (by decide)
  · exact claim9_invalid_names.2 2 dataC1 true 4096 "bogus" (by decide) (by decide)
      (by decide) (by decide)
      ⟨{ obs0 with t2 := 5, t4 := 7, x_est := 1 }, by simp [dataC1], by norm_num [obs0]⟩
      ⟨{ obs0 with t2 := 5, t4 := 7, x_est := 1 }, by simp [dataC1], by norm_num [obs0]⟩

/-- **C10.** If every `x_est` value in the processed range is exactly 0 (a
valid measurement), `PktSelection.process` with the avg-normal strategy in
vectorized mode fails with the assertion error
`"Time offset measurement not available"` — missing data is detected by
numpy array truthiness, so valid all-zero input is rejected — instead of
returning the well-defined all-zero window averages that the
window-by-window path computes on the very same trace. -/
theorem claim10_allzero_assert (N : ℕ) (data : List Obs) (batch : Bool)
    (batchSize : ℕ) (hN : 1 ≤ N) (hL : N ≤ data.length) (hbs : 1 ≤ batchSize)
    (h0 : ∀ r ∈ data, r.x_est = 0) :
    pktProcess N data "avg-normal" false true batch batchSize
        = ([], some ("Time offset measurement not available"))
      ∧ pktProcess N data "avg-normal" false false batch batchSize
          = ((List.range (data.length + 1 - N)).map
              (fun i => (i + N - 1, (0 : ℚ))), none) := by
  have hbseff : 1 ≤ (if batch then batchSize else data.length + 1 - N) := by
    cases batch
    · rw [if_neg (by decide : ¬ (false = true))]
      omega
    · rw [if_pos rfl]
      omega
  constructor
  · simp only [pktProcess]
    rw [if_neg (by simp), if_neg (by decide), if_pos trivial]
    rw [matrixByMatrix]
    rw [if_neg (by omega)]
    obtain ⟨tail, htail⟩ := mbmStarts_cons data.length N
      (if batch then batchSize else data.length + 1 - N) hbseff (by omega)
    rw [htail, mbmLoop, mbmBatch_avg_zero N data _ _ _ h0]
  · simp only [pktProcess]
    rw [if_neg (by simp), if_neg (by decide)]
    simp only [Bool.false_eq_true, if_false]
    rw [windowByWindow_plain N "avg-normal" (Or.inl rfl) false data _]
    refine congrArg₂ Prod.mk ?_ rfl
    apply List.map_congr_left
    intro i _
    refine congrArg (fun q => (i + N - 1, q)) ?_
    rw [pkEst, rowEstimate_avg_false, sample_avg_normal]
    have hsum : (((data.map (·.x_est)).drop i).take N).sum = 0 := by
      apply List.sum_eq_zero
      intro q hq
      have hq2 := List.mem_of_mem_drop (List.mem_of_mem_take hq)
      rcases List.mem_map.mp hq2 with ⟨o, ho, hoq⟩
      rw [← hoq]
      exact h0 o ho
    rw [hsum, zero_div]

/-- Closed witness for C10: a single all-zero record, `N = 1`. -/
theorem claim10_witness :
    (∀ r ∈ [obs0], r.x_est = 0)
      ∧ pktProcess 1 [obs0] "avg-normal" false true true 4096
          = ([], some ("Time offset measurement not available")) :=
  ⟨by decide,
   (claim10_allzero_assert 1 [obs0] true 4096 (by decide) (by decide) (by decide)
     (by decide)).1⟩

/-! ## Sample-mode bin-width adaptation (C4) -/

/-- Window-by-window sample-mode over a list of `(t2-t1, t4-t3)` window
pairs, threading the bin/stall state through `_sample_mode`. -/
def modeRun (cntThreshold stallPatience : ℕ) (ws : List (List ℚ × List ℚ))
    (st : ModeState) : ModeState :=
  ws.foldl (fun s p => (sampleModeStep cntThreshold stallPatience s p.1 p.2).2) st

lemma sampleModeStep_snd (cnt pat : ℕ) (st : ModeState) (a b : List ℚ) :
    (sampleModeStep cnt pat st a b).2
      = (if (if maxCount (a.map (fun x => npRound (x / st.bin))) < cnt
              ∧ maxCount (b.map (fun x => npRound (x / st.bin))) < cnt
            then st.stall + 1 else 0) > pat
         then ⟨st.bin + 10, 0⟩
         else ⟨st.bin,
            if maxCount (a.map (fun x => npRound (x / st.bin))) < cnt
              ∧ maxCount (b.map (fun x => npRound (x / st.bin))) < cnt
            then st.stall + 1 else 0⟩) := rfl

/-- The windows where both difference streams have their winning-bin count
below the threshold, at bin width `b`. -/
def bothBelow (cnt : ℕ) (b : ℚ) (p : List ℚ × List ℚ) : Prop :=
  maxCount (p.1.map (fun x => npRound (x / b))) < cnt
    ∧ maxCount (p.2.map (fun x => npRound (x / b))) < cnt

lemma modeRun_stall (b : ℚ) :
    ∀ (ws : List (List ℚ × List ℚ)) (c : ℕ),
      (∀ p ∈ ws, bothBelow 3 b p) → c + ws.length ≤ 10 →
      modeRun 3 10 ws ⟨b, c⟩ = ⟨b, c + ws.length⟩ := by
  intro ws
  induction ws with
  | nil => intro c _ _; simp [modeRun]
  | cons p rest ih =>
    intro c hbel hc
    obtain ⟨h1, h2⟩ := hbel p (List.mem_cons_self p rest)
    rw [modeRun, List.foldl_cons, sampleModeStep_snd]
    simp only
    have hcond : maxCount (List.map (fun x => npRound (x / b)) p.1) < 3
        ∧ maxCount (List.map (fun x => npRound (x / b)) p.2) < 3 := ⟨h1, h2⟩
    rw [if_pos hcond, if_neg (show ¬ (c + 1 > 10) by
      simp only [List.length_cons] at hc
      omega)]
    have := ih (c + 1) (fun q hq => hbel q (List.mem_cons_of_mem p hq)) (by
      simp only [List.length_cons] at hc
      omega)
    rw [modeRun] at this
    rw [this]
    simp only [List.length_cons]
    congr 1
    omega

/-- **C4 (amended).** In window-by-window sample-mode processing
(`PktSelection._sample_mode` with the default thresholds), the quantization
bin width is widened by the fixed increment of 10 ns and the stall counter
reset whenever the winning bin's occurrence count for **both** of the two
difference streams (`t2-t1` **and** `t4-t3`) stays below the minimum-count
threshold (default 3) for more than the patience (default 10) consecutive
windows: after 11 such consecutive windows from a reset stall counter the bin
grows from `b` to `b + 10` and the counter is 0. -/
theorem claim4_both_streams_widen (b : ℚ) (ws : List (List ℚ × List ℚ))
    (hlen : ws.length = 11) (hbel : ∀ p ∈ ws, bothBelow 3 b p) :
    modeRun 3 10 ws ⟨b, 0⟩ = ⟨b + 10, 0⟩ := by
  obtain ⟨p, hp⟩ : ∃ p, ws.drop 10 = [p] := by
    have hl : (ws.drop 10).length = 1 := by
      rw [List.length_drop, hlen]
    match hws : ws.drop 10 with
    | [q] => exact ⟨q, rfl⟩
    | [] => rw [hws] at hl; simp at hl
    | q :: q' :: t => rw [hws] at hl; simp at hl
  have hsplit : ws = ws.take 10 ++ [p] := by
    conv_lhs => rw [← List.take_append_drop 10 ws]
    rw [hp]
  have htlen : (ws.take 10).length = 10 := by
    rw [List.length_take, hlen]
    decide
  have hfirst : modeRun 3 10 (ws.take 10) ⟨b, 0⟩ = ⟨b, 10⟩ := by
    have := modeRun_stall b (ws.take 10) 0
      (fun q hq => hbel q (List.mem_of_mem_take hq)) (by omega)
    rw [htlen] at this
    simpa using this
  have hpmem : p ∈ ws := by
    rw [hsplit]
    exact List.mem_append_right _ (List.mem_cons_self p [])
  obtain ⟨h1, h2⟩ := hbel p hpmem
  rw [hsplit, modeRun, List.foldl_append]
  rw [modeRun] at hfirst
  rw [hfirst]
  rw [List.foldl_cons, List.foldl_nil, sampleModeStep_snd]
  simp only
  have hcond : maxCount (List.map (fun x => npRound (x / b)) p.1) < 3
      ∧ maxCount (List.map (fun x => npRound (x / b)) p.2) < 3 := ⟨h1, h2⟩
  rw [if_pos hcond, if_pos (show 10 + 1 > 10 by omega)]

lemma npRound_int (z : ℤ) : npRound ((z : ℚ)) = z := by
  rw [npRound, Int.floor_intCast]
  rw [if_neg (by norm_num)]
  exact round_intCast z

lemma quantize_list_c4a :
    [(0 : ℚ), 100, 200].map (fun x => npRound (x / 10)) = [0, 10, 20] := by
  show [npRound ((0 : ℚ) / 10), npRound ((100 : ℚ) / 10), npRound ((200 : ℚ) / 10)]
    = [0, 10, 20]
  have e0 : (0 : ℚ) / 10 = ((0 : ℤ) : ℚ) := by norm_num
  have e1 : (100 : ℚ) / 10 = ((10 : ℤ) : ℚ) := by norm_num
  have e2 : (200 : ℚ) / 10 = ((20 : ℤ) : ℚ) := by norm_num
  rw [e0, e1, e2, npRound_int, npRound_int, npRound_int]

lemma quantize_list_c4b :
    [(0 : ℚ), 0, 0].map (fun x => npRound (x / 10)) = [0, 0, 0] := by
  show [npRound ((0 : ℚ) / 10), npRound ((0 : ℚ) / 10), npRound ((0 : ℚ) / 10)]
    = [0, 0, 0]
  have e0 : (0 : ℚ) / 10 = ((0 : ℤ) : ℚ) := by norm_num
  rw [e0, npRound_int]

lemma foldl_fixpoint {α β : Type} (f : β → α → β) (st : β) (x : α)
    (h : f st x = st) : ∀ n, List.foldl f st (List.replicate n x) = st := by
  intro n
  induction n with
  | zero => rfl
  | succ n ih => rw [List.replicate_succ, List.foldl_cons, h, ih]

/-- Closed counterexample for C4 as stated: for 11 consecutive windows the
winning bin of the `t2-t1` stream has occurrence count 1 < 3 (all quantized
values distinct) while the `t4-t3` stream's count is 3; the claim ("either
stream stays below the threshold for more than the patience") predicts the
bin is widened to 20 ns, but `_sample_mode` requires **both** streams to
stall, so the bin stays at the starting 10 ns and the stall counter never
advances. -/
theorem claim4_counterexample :
    maxCount ([(0 : ℚ), 100, 200].map (fun x => npRound (x / SAMPLE_MODE_BIN_0))) = 1
      ∧ maxCount ([(0 : ℚ), 0, 0].map (fun x => npRound (x / SAMPLE_MODE_BIN_0))) = 3
      ∧ modeRun 3 10 (List.replicate 11 ([0, 100, 200], [0, 0, 0]))
          ⟨SAMPLE_MODE_BIN_0, 0⟩ = ⟨SAMPLE_MODE_BIN_0, 0⟩ := by
  have hb : SAMPLE_MODE_BIN_0 = (10 : ℚ) := rfl
  have ha := quantize_list_c4a
  have hbq := quantize_list_c4b
  refine ⟨by rw [hb, ha]; decide, by rw [hb, hbq]; decide, ?_⟩
  apply foldl_fixpoint
  rw [sampleModeStep_snd]
  simp only [hb, ha, hbq]
  rw [if_neg (by decide), if_neg (by decide)]

/-- Closed witness for C4 (amended): 11 identical windows whose two streams
both quantize to three distinct bins (count 1 < 3) widen the bin from 10 to
20 and reset the stall counter. -/
theorem claim4_witness :
    (List.replicate 11 (([(0 : ℚ), 100, 200], [(0 : ℚ), 300, 600]) :
        List ℚ × List ℚ)).length = 11
      ∧ modeRun 3 10 (List.replicate 11 ([0, 100, 200], [0, 300, 600]))
          ⟨10, 0⟩ = ⟨10 + 10, 0⟩ := by
  have hq2 : [(0 : ℚ), 300, 600].map (fun x => npRound (x / 10)) = [0, 30, 60] := by
    show [npRound ((0 : ℚ) / 10), npRound ((300 : ℚ) / 10), npRound ((600 : ℚ) / 10)]
      = [0, 30, 60]
    have e0 : (0 : ℚ) / 10 = ((0 : ℤ) : ℚ) := by norm_num
    have e1 : (300 : ℚ) / 10 = ((30 : ℤ) : ℚ) := by norm_num
    have e2 : (600 : ℚ) / 10 = ((60 : ℤ) : ℚ) := by norm_num
    rw [e0, e1, e2, npRound_int, npRound_int, npRound_int]
  refine ⟨by decide, ?_⟩
  apply claim4_both_streams_widen 10 _ (by decide)
  intro p hp
  rw [List.eq_of_mem_replicate hp, bothBelow]
  constructor
  · rw [quantize_list_c4a]
    decide
  · rw [hq2]
    decide

/-! ## Window-length optimizer search (`src/ptp/window.py`, C3)

The optimizer drives the estimators as black-box scoring functions (`spec`
section 2): the score of a candidate window length `N` is the max|TE| the
estimator attains at that `N`, modelled as an abstract `g : ℕ → ℚ`. -/

/-- State of the `_eval_max_te` loop: best length so far, minimum max|TE| so
far (`None` models the initial `np.inf`), patience counter, the index of the
last completed iteration (`i_iter`), and the scores written so far into the
`max_te` array. -/
structure EvalSt where
  nBest : ℕ
  minMax : Option ℚ
  patCnt : ℕ
  iIter : ℕ
  scores : List ℚ

/-- The `_eval_max_te` candidate loop: score each candidate, update the
running arg-min on strict improvement (resetting the patience counter,
otherwise incrementing it), `break` once `patience_count > patience` when
early stopping is on (leaving `i_iter` at the previous iteration), and
otherwise record `i_iter = i` at the end of the iteration. -/
def evalGo (g : ℕ → ℚ) (es : Bool) (patience : ℕ) :
    List ℕ → ℕ → EvalSt → EvalSt
  | [], _, st => st
  | n :: rest, i, st =>
    let te := g n
    let upd : ℕ × Option ℚ × ℕ :=
      match st.minMax with
      | none => (n, some te, 0)
      | some m => if te < m then (n, some te, 0) else (st.nBest, some m, st.patCnt + 1)
    let st' : EvalSt := ⟨upd.1, upd.2.1, upd.2.2, st.iIter, st.scores ++ [te]⟩
    if es ∧ upd.2.2 > patience then st'
    else evalGo g es patience rest (i + 1) { st' with iIter := i }

/-- `Optimizer._eval_max_te`: returns `(N_best, max_te, i_stop)`.  `max_te`
starts as `np.zeros(n_windows)`, so entries beyond the stop index remain 0. -/
def evalMaxTe (g : ℕ → ℚ) (windowVec : List ℕ) (es : Bool) (patience : ℕ) :
    ℕ × List ℚ × ℕ :=
  let st := evalGo g es patience windowVec 0 ⟨0, none, 0, 0, []⟩
  (st.nBest, st.scores ++ List.replicate (windowVec.length - st.scores.length) 0,
   st.iIter)

/-- Index of the first minimum of the list (`np.argsort(...)[0]`). -/
def argsortFirst (l : List ℚ) : ℕ :=
  (l.enum.foldl (fun best p => if p.2 < best.2 then p else best) (0, l.headD 0)).1

/-- Index of the second-smallest entry (`np.argsort(...)[1]`): the minimum
over the remaining indices.  Under pairwise-distinct values (the case
exercised below) every comparison sort agrees on these two positions; on
ties numpy's introsort order is unspecified. -/
def argsortSecond (l : List ℚ) : ℕ :=
  let i1 := argsortFirst l
  let rest := l.enum.filter (fun p => p.1 ≠ i1)
  (rest.foldl (fun best p => if p.2 < best.2 then p else best) (rest.headD (0, 0))).1

/-- Coarse candidate lengths `2**np.arange(1, floor(log2(len/2)) + 1)`
(`Optimizer._search_min_max_te`).  For every `L ≥ 2` the real
`floor(log2(L/2.0))` equals `Nat.log2 (L / 2)` with integer division (for odd
`L = 2m+1`, `m + 0.5 < 2^(k+1)` exactly when `m < 2^(k+1)`). -/
def coarseWindowLen (L : ℕ) : List ℕ :=
  (List.range' 1 (Nat.log2 (L / 2))).map (fun k => 2 ^ k)

/-- The fine-pass candidate list of `_search_min_max_te`: run the coarse
pass, truncate both the scores and the candidate list at `i_stop` (dropping
the last evaluated candidate even without early stopping, since `i_iter` is
the index of the last iteration and `[:i_stop]` excludes it), take the best
(`N_best` from the eval, over all coarse candidates) and the second best
(`argsort[1]` of the truncated scores), and enumerate the integers from the
smaller to the larger, upper end excluded (`np.arange`). -/
def fineWindowLen (g : ℕ → ℚ) (L : ℕ) (es : Bool) : List ℕ :=
  let r := evalMaxTe g (coarseWindowLen L) es 5
  let nBest := r.1
  let maxTe := r.2.1.take r.2.2
  let winLen := (coarseWindowLen L).take r.2.2
  let nScnd := winLen.getD (argsortSecond maxTe) 0
  if nBest > nScnd then List.range' nScnd (nBest - nScnd)
  else List.range' nBest (nScnd - nBest)

/-- `Optimizer._search_min_max_te`: the returned best window length is the
`N_best` of the *fine* pass (the second `_eval_max_te` call overwrites the
coarse `N_best`), with patience 100. -/
def searchMinMaxTe (g : ℕ → ℚ) (L : ℕ) (es : Bool) : ℕ :=
  (evalMaxTe g (fineWindowLen g L es) es 100).1

lemma evalGo_min (g : ℕ → ℚ) (pat : ℕ) :
    ∀ (wv : List ℕ) (i nb : ℕ) (m : ℚ) (pc it : ℕ) (sc : List ℚ),
      m = g nb →
      ((evalGo g false pat wv i ⟨nb, some m, pc, it, sc⟩).nBest = nb
          ∨ (evalGo g false pat wv i ⟨nb, some m, pc, it, sc⟩).nBest ∈ wv)
        ∧ g (evalGo g false pat wv i ⟨nb, some m, pc, it, sc⟩).nBest ≤ m
        ∧ ∀ n ∈ wv, g (evalGo g false pat wv i ⟨nb, some m, pc, it, sc⟩).nBest ≤ g n := by
  intro wv
  induction wv with
  | nil =>
    intro i nb m pc it sc hm
    refine ⟨Or.inl rfl, ?_, ?_⟩
    · rw [evalGo]
      simp [hm]
    · intro n hn
      exact absurd hn (List.not_mem_nil n)
  | cons n rest ih =>
    intro i nb m pc it sc hm
    rw [evalGo]
    simp only [Bool.false_eq_true, false_and, if_false]
    by_cases hlt : g n < m
    · rw [if_pos hlt]
      obtain ⟨ha, hb, hc⟩ := ih (i + 1) n (g n) 0 i (sc ++ [g n]) rfl
      refine ⟨?_, le_trans hb (le_of_lt hlt), ?_⟩
      · rcases ha with h | h
        · exact Or.inr (by rw [h]; exact List.mem_cons_self n rest)
        · exact Or.inr (List.mem_cons_of_mem n h)
      · intro n' hn'
        rcases List.mem_cons.mp hn' with h | h
        · rw [h]
          exact hb
        · exact hc n' h
    · rw [if_neg hlt]
      obtain ⟨ha, hb, hc⟩ := ih (i + 1) nb m (pc + 1) i (sc ++ [g n]) hm
      refine ⟨?_, hb, ?_⟩
      · rcases ha with h | h
        · exact Or.inl h
        · exact Or.inr (List.mem_cons_of_mem n h)
      · intro n' hn'
        rcases List.mem_cons.mp hn' with h | h
        · rw [h]
          exact le_trans hb (not_lt.mp hlt)
        · exact hc n' h

lemma evalMaxTe_min (g : ℕ → ℚ) (pat : ℕ) (wv : List ℕ) (hne : wv ≠ []) :
    (evalMaxTe g wv false pat).1 ∈ wv
      ∧ ∀ n ∈ wv, g (evalMaxTe g wv false pat).1 ≤ g n := by
  match wv, hne with
  | n :: rest, _ =>
    rw [evalMaxTe]
    simp only
    rw [evalGo]
    simp only [Bool.false_eq_true, false_and, if_false]
    obtain ⟨ha, hb, hc⟩ := evalGo_min g pat rest 1 n (g n) 0 0 ([] ++ [g n]) rfl
    constructor
    · rcases ha with h | h
      · rw [h]
        exact List.mem_cons_self n rest
      · exact List.mem_cons_of_mem n h
    · intro n' hn'
      rcases List.mem_cons.mp hn' with h | h
      · rw [h]
        exact hb
      · exact hc n' h

/-- **C3 (amended).** With early stopping disabled, the Optimizer's search
returns as `N_best` the arg-min of the max|TE| score over the *fine-pass*
candidates alone — the integers from the smaller to the larger of the coarse
best and coarse second-best (the latter computed from the truncated coarse
scores), upper end excluded — not over both passes: the returned length
belongs to the fine range and minimizes the score there (whenever that range
is nonempty). -/
theorem claim3_fine_argmin (g : ℕ → ℚ) (L : ℕ)
    (hne : fineWindowLen g L false ≠ []) :
    searchMinMaxTe g L false ∈ fineWindowLen g L false
      ∧ ∀ n ∈ fineWindowLen g L false, g (searchMinMaxTe g L false) ≤ g n := by
  rw [searchMinMaxTe]
  exact evalMaxTe_min g 100 _ hne

/-- The concrete strictly unimodal score used to refute C3: minimum at
`N* = 8`, strictly decreasing on `[2, 8]` and strictly increasing on
`[8, 16]`; all values are integer-valued rationals. -/
def g32 : ℕ → ℚ :=
  fun n => if n ≤ 8 then ((9 - (n : ℤ) : ℤ) : ℚ) else (((n : ℤ) - 7 : ℤ) : ℚ)

lemma coarse32 : coarseWindowLen 32 = [2, 4, 8, 16] := by
  have hlog : Nat.log2 (32 / 2) = 4 := by norm_num [Nat.log2]
  rw [coarseWindowLen, hlog]
  decide

lemma fine32 : fineWindowLen g32 32 false = [4, 5, 6, 7] := by
  rw [fineWindowLen, coarse32]
  decide

/-- Closed counterexample for C3 as stated: with early stopping disabled and
the strictly unimodal score `g32` (minimum at `N* = 8`, a coarse candidate;
strictly decreasing on `[2, 8]`, strictly increasing on `[8, 16]`), the
search returns 7, not the arg-min 8 of the score across both passes
(`g32 8 < g32 7`): the fine pass `arange(N_scnd_best, N_best) = [4, 5, 6, 7]`
excludes the coarse best 8 and its `N_best` overwrites the coarse one. -/
theorem claim3_counterexample :
    searchMinMaxTe g32 32 false = 7
      ∧ 8 ∈ coarseWindowLen 32
      ∧ g32 8 < g32 7
      ∧ ((List.range' 2 6).all (fun n => decide (g32 (n + 1) < g32 n)) = true)
      ∧ ((List.range' 8 8).all (fun n => decide (g32 n < g32 (n + 1))) = true) := by
  refine ⟨?_, ?_, by decide, by decide, by decide⟩
  · rw [searchMinMaxTe, fine32]
    decide
  · rw [coarse32]
    decide

/-- Closed witness for C3 (amended) on the same concrete score. -/
theorem claim3_witness :
    fineWindowLen g32 32 false ≠ []
      ∧ searchMinMaxTe g32 32 false ∈ fineWindowLen g32 32 false := by
  have hne : fineWindowLen g32 32 false ≠ [] := by
    rw [fine32]
    decide
  exact ⟨hne, (claim3_fine_argmin g32 32 hne).1⟩

/-! ## Optimizer candidate evaluation and key erasure (`_eval_max_te`, C5) -/

/-- Optimizer-side observation record: ground truth `x`, raw measurement, and
the two keys an LS candidate run writes (`x_ls_eff`, `y_ls_eff`), `none`
meaning the key is absent. -/
structure RecW where
  t1 : ℚ
  x_est : ℚ
  x : ℚ
  xLsEff : Option ℚ
  yLsEff : Option ℚ

def recW0 : RecW := ⟨0, 0, 0, none, none⟩

/-- `Ls.process` "eff" on optimizer records: each record at index
`j ≥ N - 1` receives both the offset key `x_ls_eff` and the rate key
`y_ls_eff` of the window ending at `j`. -/
def lsRunEff (N : ℕ) (T : ℚ) (recs : List RecW) : List RecW :=
  let xs : ℕ → ℚ := fun i => (recs.getD i recW0).x_est
  recs.mapIdx (fun j r =>
    if N ≤ j + 1 then
      { r with xLsEff := some (lsEffXf N xs (j + 1 - N)),
               yLsEff := some ((lsEffTheta N xs (j + 1 - N)).2 / T) }
    else r)

def listMaxAbs (l : List ℚ) : ℚ := listMax (l.map (fun q => |q|))

/-- One candidate evaluation of `Optimizer._eval_max_te` for the LS
estimator: run `Ls.process`, compute the error series
`x_ls_eff - x` over the post-transient records that carry the key, erase the
offset key (`r.pop(f"x_{est_key}", None)` — only the `x_` key) from every
record, and score `max|TE|`. -/
def evalLsCandidate (N : ℕ) (T : ℚ) (skip : ℕ) (recs : List RecW) :
    List RecW × ℚ :=
  let d1 := lsRunEff N T recs
  let post := d1.drop skip
  let xErr := (post.filter (fun r => r.xLsEff.isSome)).map
    (fun r => r.xLsEff.getD 0 - r.x)
  (d1.map (fun r => { r with xLsEff := none }), listMaxAbs xErr)

/-- **C5 (amended).** After each candidate LS evaluation in the Optimizer's
search, the offset key `x_ls_eff` is absent from every record (the search
deletes it before the next candidate is scored); the rate key `y_ls_eff`
written by the run is *not* deleted and remains on the records (see the
counterexample). -/
theorem claim5_only_x_deleted (N : ℕ) (T : ℚ) (skip : ℕ) (recs : List RecW) :
    ∀ r ∈ (evalLsCandidate N T skip recs).1, r.xLsEff = none := by
  intro r hr
  simp only [evalLsCandidate] at hr
  rcases List.mem_map.mp hr with ⟨r', _, hr'⟩
  rw [← hr']

/-- Records used by the closed C5 refutation/witness. -/
def recsC5 : List RecW := [recW0, { recW0 with x_est := 2 }]

/-- Closed counterexample for C5 as stated: after a candidate LS evaluation
(`N = 2`, `T = 1`), record 1 still carries the rate key `y_ls_eff` — the
search pops only `x_<est_key>`, so not every temporary output key written by
the candidate's estimator is deleted. -/
theorem claim5_counterexample :
    ((evalLsCandidate 2 1 0 recsC5).1.getD 1 recW0).yLsEff ≠ none := by
  simp [evalLsCandidate, lsRunEff, recsC5]

/-- Closed witness for C5 (amended): the offset key is erased from record 0
of the same run. -/
theorem claim5_witness :
    ((evalLsCandidate 2 1 0 recsC5).1.getD 0 recW0).xLsEff = none := by
  have hlen : 0 < (evalLsCandidate 2 1 0 recsC5).1.length := by
    simp [evalLsCandidate, lsRunEff, recsC5]
  rw [List.getD_eq_getElem _ _ hlen]
  exact claim5_only_x_deleted 2 1 0 recsC5 _ (List.getElem_mem hlen)

end PtpDal
